import Mathlib

/-!
Verification of the hybrid search core of `src/api/search.ts` (the
`code-session-search` repository): tokenizer and query analysis, exact-signal
detection, merge-and-rank, coverage accounting, and the index write path.

The TypeScript source is shallowly embedded: pure functions become Lean
functions on `String`/`List`, JavaScript numbers appearing only in order
comparisons and integer arithmetic are modelled as `Int`, the module-level
mutable state (database tables, fuzzy index, coverage sets) becomes an
explicit `SearchState` record threaded through the operations, and the two
external engines (SQLite FTS5 relevance rank and snippet, FlexSearch fuzzy
retrieval) are parameters of the functions that invoke them.

Character-class note: the source tokenizes with the Unicode regex classes
of letters and numbers and lowercases with `String.prototype.toLowerCase`.
The embedding models these with `Char.isAlphanum` and `Char.toLower`, i.e.
it is character-for-character faithful on the ASCII fragment, which every
concrete input below lies in.  String helpers that the Lean library defines
by well-founded recursion (`trim`, `replace`) are re-implemented with
structural recursion so concrete runs reduce inside the kernel.
-/

namespace SessionSearch

/-! ## Definitions: the tokenizer and query analysis -/

/-- Character class of the token regex in `tokenizeSearchQuery`
(`src/api/search.ts` line 93): a maximal-run member is a letter or digit. -/
def isTokenChar (c : Char) : Bool := c.isAlphanum

/-- Splits a character list into the maximal runs satisfying `p`, the
accumulator holding the current run reversed.  This is the semantics of
`text.match(runRegex)` for a character-class-plus regex. -/
def tokenRunsAux (p : Char → Bool) : List Char → List Char → List (List Char)
  | [], acc => if acc = [] then [] else [acc.reverse]
  | c :: cs, acc =>
    if p c then tokenRunsAux p cs (c :: acc)
    else if acc = [] then tokenRunsAux p cs []
    else acc.reverse :: tokenRunsAux p cs []

/-- `tokenizeSearchQuery` (`src/api/search.ts` lines 90-95): lowercase the
query, extract the maximal alphanumeric runs, drop empty strings (the
source's `.filter(Boolean)`; runs are never empty, the filter is kept for
faithfulness). -/
def tokenizeSearchQuery (query : String) : List String :=
  (((tokenRunsAux isTokenChar (query.toList.map Char.toLower) []).map
      fun cs => String.mk cs).filter fun s => s ≠ "")

/-- `String.prototype.trim`: strip leading and trailing whitespace.  Written
with structural list recursion so that concrete inputs evaluate inside the
kernel. -/
def jsTrim (s : String) : String :=
  String.mk
    (((s.toList.dropWhile Char.isWhitespace).reverse.dropWhile Char.isWhitespace).reverse)

/-- `shouldUseFuzzyForQuery` (`src/api/search.ts` lines 97-101). -/
def shouldUseFuzzyForQuery (query : String) : Bool :=
  let trimmed := jsTrim query
  if trimmed.length < 3 then false
  else decide ((tokenizeSearchQuery trimmed).length > 0)

/-- `s.replace(regexp-of-the-single-character c, r)` with the global flag:
every occurrence of the character `c` replaced by the string `r`. -/
def replaceChar (s : String) (c : Char) (r : String) : String :=
  String.mk (s.toList.flatMap fun a => if a = c then r.toList else [a])

/-- One token of the FTS query string: the token double-quoted with any
interior quote doubled (`src/api/search.ts` line 106). -/
def quoteFtsToken (token : String) : String :=
  "\"" ++ replaceChar token '\"' "\"\"" ++ "\""

/-- `Array.prototype.join(" ")`. -/
def joinSpace : List String → String
  | [] => ""
  | [s] => s
  | s :: rest => s ++ " " ++ joinSpace rest

/-- `buildFtsQuery` (`src/api/search.ts` lines 103-107): every token quoted
and space-joined; empty string when there are no tokens. -/
def buildFtsQuery (query : String) : String :=
  let tokens := tokenizeSearchQuery query
  if tokens = [] then ""
  else joinSpace (tokens.map quoteFtsToken)

/-- Follows the spec's words for `buildExactQuery` (spec section 4.1), to be
compared with `buildFtsQuery` from the source: tokens of length 1-2 are
dropped if any longer token exists in the same query; if all tokens are
short, keep them all; empty string when no tokens exist. -/
def buildExactQuerySpec (query : String) : String :=
  let tokens := tokenizeSearchQuery query
  if tokens = [] then ""
  else
    let longTokens := tokens.filter fun t => 3 ≤ t.length
    let kept := if longTokens = [] then tokens else longTokens
    joinSpace (kept.map quoteFtsToken)

/-! ### Exact-signal detection (`determineExactSignals`) -/

/-- `stripHtml` (`src/api/search.ts` lines 109-111) on characters, with fuel
for structural recursion (fuel = list length always suffices, as every step
consumes at least one character).  The regex removes each leftmost
occurrence of a markup run: a less-than sign, one or more characters other
than greater-than, then a greater-than sign; where no such run starts, the
character is kept and scanning resumes one position later - exactly the
global-regex-replace semantics. -/
def stripHtmlFuel : Nat → List Char → List Char
  | 0, l => l
  | _ + 1, [] => []
  | n + 1, c :: rest =>
    if c = '<' then
      let run := rest.takeWhile fun d => d ≠ '>'
      let rest' := rest.dropWhile fun d => d ≠ '>'
      if run ≠ [] ∧ rest' ≠ [] then stripHtmlFuel n rest'.tail
      else c :: stripHtmlFuel n rest
    else c :: stripHtmlFuel n rest

/-- `stripHtml` on strings. -/
def stripHtml (s : String) : String :=
  String.mk (stripHtmlFuel s.toList.length s.toList)

/-- `String.prototype.includes`: the needle occurs contiguously in the
haystack. -/
def occursIn (needle : List Char) : List Char → Bool
  | [] => needle.isPrefixOf []
  | c :: rest => needle.isPrefixOf (c :: rest) || occursIn needle rest

/-- Matching of the separator-phrase regex at the start of `s`: each token
literally, consecutive tokens separated by one or more non-alphanumeric
characters.  Because every token is a nonempty alphanumeric run, the
backtracking regex engine can only ever bind each separator to the maximal
non-alphanumeric run, which is what this deterministic matcher consumes. -/
def sepSeqMatchAt : List String → List Char → Bool
  | [], _ => true
  | [t], s => t.toList.isPrefixOf s
  | t :: rest, s =>
    t.toList.isPrefixOf s &&
      (let after := s.drop t.toList.length
       let sep := after.takeWhile fun c => !isTokenChar c
       let beyond := after.dropWhile fun c => !isTokenChar c
       !sep.isEmpty && sepSeqMatchAt rest beyond)

/-- `RegExp.prototype.test` for the separator-phrase pattern: try every
start position. -/
def sepRegexTestAux (tokens : List String) : List Char → Bool
  | [] => sepSeqMatchAt tokens []
  | c :: rest => sepSeqMatchAt tokens (c :: rest) || sepRegexTestAux tokens rest

/-- The tokens interleaved with concrete separator strings, the shape of a
separator-phrase occurrence. -/
def interleaveSeps : List String → List (List Char) → List Char
  | [], _ => []
  | [t], _ => t.toList
  | t :: _, [] => t.toList
  | t :: rest, s :: seps => t.toList ++ s ++ interleaveSeps rest seps

/-- A separator-phrase occurrence of `tokens` inside `hay`: somewhere in
`hay` the tokens appear in order, adjacent, with each consecutive pair
separated by one or more non-alphanumeric characters. -/
def SepPhraseOccurs (tokens : List String) (hay : List Char) : Prop :=
  ∃ pre seps post, seps.length + 1 = tokens.length ∧
    (∀ s ∈ seps, s ≠ [] ∧ ∀ c ∈ s, isTokenChar c = false) ∧
    hay = pre ++ interleaveSeps tokens seps ++ post

/-- The `Omit<SearchSignals, "fuzzy">` return shape of
`determineExactSignals`. -/
structure ExactSignals where
  exactLiteral : Bool
  exactPhrase : Bool
  exactTokens : Bool
deriving DecidableEq, Repr

/-- `determineExactSignals` (`src/api/search.ts` lines 122-160).  The
separator regex is built from regex-escaped tokens; since tokens are
alphanumeric runs the escaping is the identity and compilation cannot fail,
so the catch-branch that degrades a failed compile to `false` is
unreachable and the embedding is total. -/
def determineExactSignals (query haystack : String) : ExactSignals :=
  let normalizedQuery := String.mk ((jsTrim query).toList.map Char.toLower)
  let normalizedHaystack := (stripHtml haystack).toList.map Char.toLower
  if normalizedQuery = "" then
    { exactLiteral := false, exactPhrase := false, exactTokens := false }
  else
    let tokens := tokenizeSearchQuery normalizedQuery
    let exactTokens := decide (tokens.length > 0) &&
      tokens.all fun t => occursIn t.toList normalizedHaystack
    let exactLiteral := occursIn normalizedQuery.toList normalizedHaystack
    let exactPhrase :=
      if tokens.length > 1 then
        occursIn (joinSpace tokens).toList normalizedHaystack ||
          sepRegexTestAux tokens normalizedHaystack
      else false
    { exactLiteral := exactLiteral, exactPhrase := exactPhrase,
      exactTokens := exactTokens }

/-! ### A stable merge sort, modelling `Array.prototype.sort(comparator)`

JavaScript's `sort` is required to be a stable comparison sort; it is
modelled here as the standard top-down stable merge sort parametrised by
`le a b`, the Boolean reading of `comparator(a, b) <= 0`. -/

/-- Stable merge with explicit fuel (structural recursion, so that concrete
sorts reduce inside the kernel); the left element wins ties.  The fuel is
never exhausted when it starts at the summed length. -/
def mergeByFuel (le : α → α → Bool) : Nat → List α → List α → List α
  | 0, xs, ys => xs ++ ys
  | _ + 1, [], ys => ys
  | _ + 1, xs, [] => xs
  | n + 1, x :: xs, y :: ys =>
    if le x y then x :: mergeByFuel le n xs (y :: ys)
    else y :: mergeByFuel le n (x :: xs) ys

/-- Stable merge of two lists: the left element wins ties. -/
def mergeBy (le : α → α → Bool) (xs ys : List α) : List α :=
  mergeByFuel le (xs.length + ys.length) xs ys

/-- Top-down merge sort splitting at the midpoint, with explicit fuel. -/
def sortByFuel (le : α → α → Bool) : Nat → List α → List α
  | 0, l => l
  | n + 1, l =>
    if l.length ≤ 1 then l
    else
      mergeBy le (sortByFuel le n (l.take (l.length / 2)))
        (sortByFuel le n (l.drop (l.length / 2)))

/-- Top-down stable merge sort. -/
def sortBy (le : α → α → Bool) (l : List α) : List α :=
  sortByFuel le l.length l

/-! ### The result data model and `rankMergedResults` -/

/-- The `tier: 1 | 2 | 3` field of `HybridSearchResult`. -/
inductive Tier where
  | t1
  | t2
  | t3
deriving DecidableEq, Repr

/-- The numeric value of a tier, as used by `a.tier - b.tier`. -/
def Tier.toInt : Tier → Int
  | .t1 => 1
  | .t2 => 2
  | .t3 => 3

/-- `SearchSignals` (`src/api/search.ts` lines 7-12). -/
structure SearchSignals where
  exactLiteral : Bool
  exactPhrase : Bool
  exactTokens : Bool
  fuzzy : Bool
deriving DecidableEq, Repr

/-- `HybridSearchResult` (`src/api/search.ts` lines 14-25).  The numeric
fields enter the code only through integer arithmetic and order comparisons
and are modelled as `Int`; the optional `rank` is `Option Int`. -/
structure HybridSearchResult where
  sessionId : String
  source : String
  display : String
  project : String
  snippet : String
  timestamp : Int
  tier : Tier
  score : Int
  rank : Option Int
  signals : SearchSignals
deriving DecidableEq, Repr

/-- `Number(b : boolean)` as used in the comparator. -/
def boolToInt (b : Bool) : Int := if b then 1 else 0

/-- The comparator closure passed to `sort` inside `rankMergedResults`
(`src/api/search.ts` lines 163-189), returning the sign-carrying number. -/
def cmpResults (a b : HybridSearchResult) : Int :=
  if a.tier ≠ b.tier then a.tier.toInt - b.tier.toInt
  else if a.tier = .t1 ∨ a.tier = .t2 then
    if a.signals.exactLiteral ≠ b.signals.exactLiteral then
      boolToInt b.signals.exactLiteral - boolToInt a.signals.exactLiteral
    else if a.signals.exactPhrase ≠ b.signals.exactPhrase then
      boolToInt b.signals.exactPhrase - boolToInt a.signals.exactPhrase
    else if a.signals.exactTokens ≠ b.signals.exactTokens then
      boolToInt b.signals.exactTokens - boolToInt a.signals.exactTokens
    else if a.timestamp ≠ b.timestamp then b.timestamp - a.timestamp
    else
      match a.rank, b.rank with
      | some ra, some rb => if ra ≠ rb then ra - rb else b.score - a.score
      | _, _ => b.score - a.score
  else
    if a.score ≠ b.score then b.score - a.score
    else b.timestamp - a.timestamp

/-- The comparator as the Boolean "sorts at or before" relation. -/
def resultLe (a b : HybridSearchResult) : Bool := decide (cmpResults a b ≤ 0)

/-- `rankMergedResults` (`src/api/search.ts` lines 162-190): a stable
comparison sort of a copy of the input by `cmpResults`. -/
def rankMergedResults (l : List HybridSearchResult) : List HybridSearchResult :=
  sortBy resultLe l

/-! ### Coverage accounting -/

/-- `makeSessionKey` (`src/api/search.ts` lines 69-71): the composite
source-qualified identity key. -/
def makeSessionKey (source sessionId : String) : String :=
  source ++ ":" ++ sessionId

/-- One entry of `SearchCoverage.bySource`. -/
structure SourceCoverage where
  indexed : Nat
  total : Nat
deriving DecidableEq, Repr

/-- `SearchCoverage` (`src/api/search.ts` lines 27-32); the `bySource`
record is modelled as insertion-ordered key-value pairs. -/
structure SearchCoverage where
  indexedSessions : Nat
  totalSessions : Nat
  bySource : List (String × SourceCoverage)
  lastUpdatedAt : Int
deriving DecidableEq, Repr

/-- The `{ partial, coverage }` return shape of `computeCoverageSnapshot`
(the `partial` field is renamed, `partial` being a Lean keyword). -/
structure CoverageResult where
  partialFlag : Bool
  coverage : SearchCoverage
deriving DecidableEq, Repr

/-- `computeCoverageSnapshot` (`src/api/search.ts` lines 192-223).  The
loop accumulating `totalSessions`/`indexedSessions` is rendered as sums of
per-source counts; `Date.now()` is the explicit `now` argument. -/
def computeCoverageSnapshot (expected : List (String × List String))
    (indexed : List String) (dirtyCount : Nat) (now : Int) : CoverageResult :=
  let bySource := expected.map fun p =>
    let cnt := (p.2.filter fun id =>
      indexed.contains id || indexed.contains (makeSessionKey p.1 id)).length
    (p.1, ({ indexed := cnt, total := p.2.length } : SourceCoverage))
  let totalSessions := (bySource.map fun p => p.2.total).sum
  let indexedSessions := (bySource.map fun p => p.2.indexed).sum
  { partialFlag := decide (indexedSessions < totalSessions) || decide (dirtyCount > 0),
    coverage :=
      { indexedSessions := indexedSessions, totalSessions := totalSessions,
        bySource := bySource, lastUpdatedAt := now } }

/-! ### Lexicographic reading of the comparator (for the ordering claims) -/

/-- Lexicographic "at most" on integer lists. -/
def lexLe : List Int → List Int → Prop
  | [], _ => True
  | _ :: _, [] => False
  | a :: as, b :: bs => a < b ∨ (a = b ∧ lexLe as bs)

instance : ∀ x y : List Int, Decidable (lexLe x y)
  | [], _ => isTrue trivial
  | _ :: _, [] => isFalse id
  | a :: as, b :: bs =>
    haveI := instDecidableLexLe as bs
    inferInstanceAs (Decidable (a < b ∨ (a = b ∧ lexLe as bs)))

/-- Tail of the sort key realised by `cmpResults`: within Tier 1/2 the
exactness signals (true first), then timestamp descending, then rank
ascending, then score descending; within Tier 3 score descending then
timestamp descending.  `rank.getD 0` only matches the comparator when every
Tier-1/2 element carries a rank, which is the hypothesis of claim C3. -/
def sortKeyTail (r : HybridSearchResult) : List Int :=
  if r.tier = .t3 then
    [-r.score, -r.timestamp]
  else
    [boolToInt (!r.signals.exactLiteral),
      boolToInt (!r.signals.exactPhrase), boolToInt (!r.signals.exactTokens),
      -r.timestamp, r.rank.getD 0, -r.score]

/-- The full sort key: the tier dominates, then `sortKeyTail`. -/
def sortKey (r : HybridSearchResult) : List Int :=
  r.tier.toInt :: sortKeyTail r

/-- Follows the words of claim C3 and of spec section 4.5 point 6 for the
order within Tier 1 or Tier 2: compare `exactLiteral` true-first, then
`exactPhrase` true-first, then `exactTokens` true-first, then timestamp
descending, then engine rank ascending, then score descending. -/
def specTier12Le (a b : HybridSearchResult) : Bool :=
  if a.signals.exactLiteral ≠ b.signals.exactLiteral then a.signals.exactLiteral
  else if a.signals.exactPhrase ≠ b.signals.exactPhrase then a.signals.exactPhrase
  else if a.signals.exactTokens ≠ b.signals.exactTokens then a.signals.exactTokens
  else if a.timestamp ≠ b.timestamp then decide (b.timestamp < a.timestamp)
  else if a.rank.getD 0 ≠ b.rank.getD 0 then decide (a.rank.getD 0 < b.rank.getD 0)
  else decide (b.score ≤ a.score)

/-- Concrete Tier-1 fixture for the ordering witness: the more recent
result, carrying the numerically worse (larger) engine rank. -/
def c3Recent : HybridSearchResult :=
  { sessionId := "recent", source := "claude", display := "Recent",
    project := "proj", snippet := "", timestamp := 200, tier := Tier.t1,
    score := 9, rank := some 5,
    signals := { exactLiteral := true, exactPhrase := false,
                 exactTokens := true, fuzzy := false } }

/-- Concrete Tier-1 fixture for the ordering witness: the older result with
the better (smaller) engine rank and the higher score, but identical
exactness signals. -/
def c3Older : HybridSearchResult :=
  { sessionId := "older", source := "claude", display := "Older",
    project := "proj", snippet := "", timestamp := 100, tier := Tier.t1,
    score := 10, rank := some 1,
    signals := { exactLiteral := true, exactPhrase := false,
                 exactTokens := true, fuzzy := false } }

/-! ### JavaScript Map/Set operations on association lists

`Map` and `Set` are modelled as insertion-ordered lists; `set` on an
existing key updates it in place, `add` on a present element is a no-op. -/

/-- `Set.prototype.add`. -/
def setAdd (s : List String) (x : String) : List String :=
  if s.contains x then s else s ++ [x]

/-- `Set.prototype.delete`. -/
def setDelete (s : List String) (x : String) : List String :=
  s.filter fun y => y ≠ x

/-- `Map.prototype.set`. -/
def mapSet (m : List (String × α)) (k : String) (v : α) : List (String × α) :=
  if m.any fun p => p.1 == k then
    m.map fun p => if p.1 == k then (k, v) else p
  else m ++ [(k, v)]

/-- `Map.prototype.get`. -/
def mapGet (m : List (String × α)) (k : String) : Option α :=
  (m.find? fun p => p.1 == k).map fun p => p.2

/-- `Map.prototype.has`. -/
def mapHas (m : List (String × α)) (k : String) : Bool :=
  m.any fun p => p.1 == k

/-- `Map.prototype.delete`. -/
def mapDelete (m : List (String × α)) (k : String) : List (String × α) :=
  m.filter fun p => p.1 ≠ k

/-- `ensureSourceSet(map, source).add(id)` (`src/api/search.ts` lines
73-79 plus the `add` at the call sites). -/
def mapAddToSet (m : List (String × List String)) (k v : String) :
    List (String × List String) :=
  match mapGet m k with
  | some s => mapSet m k (setAdd s v)
  | none => m ++ [(k, [v])]

/-! ### The module state and the index write path -/

/-- `FuzzyDoc` (`src/api/search.ts` lines 46-53). -/
structure FuzzyDoc where
  sessionId : String
  source : String
  display : String
  project : String
  content : String
  timestamp : Int
deriving DecidableEq, Repr

/-- One row of the `sessions_fts` virtual table (insertion order kept). -/
structure FtsRow where
  sessionId : String
  source : String
  display : String
  project : String
  content : String
deriving DecidableEq, Repr

/-- One row of `session_index_meta`, whose primary key is
`(source, session_id)`. -/
structure MetaRow where
  sessionId : String
  source : String
  contentHash : Option String
  sessionTimestamp : Int
  lastIndexedAt : Option Int
deriving DecidableEq, Repr

/-- The module-level mutable state of `src/api/search.ts` (lines 55-67):
the open database with its two tables, the FlexSearch index (modelled by
its id-to-text entries), and the in-memory mirrors. -/
structure SearchState where
  dbOpen : Bool
  ftsRows : List FtsRow
  metaRows : List MetaRow
  fuzzyIndexKeys : List (String × String)
  fuzzyDocs : List (String × FuzzyDoc)
  dirtySessionIds : List String
  expectedBySource : List (String × List String)
  indexedIds : List String
  indexedBySource : List (String × List String)
deriving DecidableEq, Repr

/-- The state right after `initSearchDb` on a fresh data directory: empty
tables, and the startup rebuild of the in-memory mirrors finds nothing. -/
def initialSearchState : SearchState :=
  { dbOpen := true, ftsRows := [], metaRows := [], fuzzyIndexKeys := [],
    fuzzyDocs := [], dirtySessionIds := [], expectedBySource := [],
    indexedIds := [], indexedBySource := [] }

/-- `toFuzzyText` (`src/api/search.ts` lines 279-281). -/
def toFuzzyText (display project content : String) : String :=
  display ++ "\n" ++ project ++ "\n" ++ content

/-- `setExpectedSessions` (`src/api/search.ts` lines 408-416); a session is
the pair (id, source). -/
def setExpectedSessions (s : SearchState) (sessions : List (String × String)) :
    SearchState :=
  { s with expectedBySource :=
      sessions.foldl (fun m p => mapAddToSet m p.2 p.1) [] }

/-- `indexSession` (`src/api/search.ts` lines 418-462).  `Bun.hash(content)`
and `Date.now()` are the explicit `contentHash` and `now` arguments.  The
FTS delete-then-insert and the `INSERT OR REPLACE` on the meta table both
become remove-matching-then-append. -/
def indexSession (s : SearchState) (sessionId source display project content : String)
    (timestamp : Int) (contentHash : String) (now : Int) : SearchState :=
  if !s.dbOpen then s
  else
    let key := makeSessionKey source sessionId
    { s with
      ftsRows := (s.ftsRows.filter fun r =>
          !(r.sessionId == sessionId && r.source == source)) ++
        [{ sessionId := sessionId, source := source, display := display,
           project := project, content := content }],
      metaRows := (s.metaRows.filter fun m =>
          !(m.sessionId == sessionId && m.source == source)) ++
        [{ sessionId := sessionId, source := source, contentHash := some contentHash,
           sessionTimestamp := timestamp, lastIndexedAt := some now }],
      indexedIds := setAdd s.indexedIds key,
      indexedBySource := mapAddToSet s.indexedBySource source sessionId,
      fuzzyIndexKeys :=
        (if mapHas s.fuzzyDocs key then
          s.fuzzyIndexKeys.filter fun p => p.1 ≠ key
        else s.fuzzyIndexKeys) ++ [(key, toFuzzyText display project content)],
      fuzzyDocs := mapSet s.fuzzyDocs key
        { sessionId := sessionId, source := source, display := display,
          project := project, content := content, timestamp := timestamp },
      dirtySessionIds := setDelete s.dirtySessionIds sessionId }

/-- The in-memory cleanup performed for one `(source, sessionId)` row inside
the loop of `removeIndexedSession` (`src/api/search.ts` lines 479-493). -/
def removeMirrorEntry (st : SearchState) (sessionId rowSource : String) : SearchState :=
  let key := makeSessionKey rowSource sessionId
  let indexedIds' := setDelete st.indexedIds key
  let indexedBySource' :=
    match mapGet st.indexedBySource rowSource with
    | none => st.indexedBySource
    | some ids =>
      let ids' := setDelete ids sessionId
      if ids'.isEmpty then mapDelete st.indexedBySource rowSource
      else mapSet st.indexedBySource rowSource ids'
  if mapHas st.fuzzyDocs key then
    { st with
      indexedIds := indexedIds', indexedBySource := indexedBySource',
      fuzzyIndexKeys := st.fuzzyIndexKeys.filter (fun p => p.1 ≠ key),
      fuzzyDocs := mapDelete st.fuzzyDocs key }
  else
    { st with indexedIds := indexedIds', indexedBySource := indexedBySource' }

/-- `removeIndexedSession` (`src/api/search.ts` lines 464-504): with a
source, delete exactly the one identity; without, delete the sessionId
across all sources; then clean the mirrors for each affected row, drop the
id from the expected sets, and clear its dirty mark. -/
def removeIndexedSession (s : SearchState) (sessionId : String)
    (source : Option String) : SearchState :=
  if !s.dbOpen then s
  else
    let rows : List String :=
      match source with
      | some src => (s.metaRows.filter fun m =>
          m.sessionId == sessionId && m.source == src).map fun m => m.source
      | none => (s.metaRows.filter fun m =>
          m.sessionId == sessionId).map fun m => m.source
    let ftsRows' :=
      match source with
      | some src => s.ftsRows.filter fun r =>
          !(r.sessionId == sessionId && r.source == src)
      | none => s.ftsRows.filter fun r => !(r.sessionId == sessionId)
    let metaRows' :=
      match source with
      | some src => s.metaRows.filter fun m =>
          !(m.sessionId == sessionId && m.source == src)
      | none => s.metaRows.filter fun m => !(m.sessionId == sessionId)
    let s1 := { s with ftsRows := ftsRows', metaRows := metaRows' }
    let s2 := rows.foldl (fun st rowSource => removeMirrorEntry st sessionId rowSource) s1
    let expected' :=
      match source with
      | some src =>
        match mapGet s2.expectedBySource src with
        | some ids => mapSet s2.expectedBySource src (setDelete ids sessionId)
        | none => s2.expectedBySource
      | none => s2.expectedBySource.map (fun p => (p.1, setDelete p.2 sessionId))
    { s2 with
      expectedBySource := expected',
      dirtySessionIds := setDelete s2.dirtySessionIds sessionId }

/-- `getCoverageSnapshot` (`src/api/search.ts` lines 225-231). -/
def getCoverageSnapshot (s : SearchState) (now : Int) : CoverageResult :=
  computeCoverageSnapshot s.expectedBySource s.indexedIds s.dirtySessionIds.length now

/-! ### Snippets and the search read path -/

/-- `escapeHtml` (`src/api/search.ts` lines 113-120): the five `replaceAll`
calls, in source order. -/
def escapeHtml (text : String) : String :=
  replaceChar
    (replaceChar
      (replaceChar (replaceChar (replaceChar text '&' "&amp;") '<' "&lt;")
        '>' "&gt;")
      '\"' "&quot;")
    '\'' "&#39;"

/-- `text.replace(whitespace-run regex, " ")`: collapse every maximal
whitespace run to a single space; the flag tracks being inside a run. -/
def collapseWsAux : Bool → List Char → List Char
  | _, [] => []
  | inWs, c :: rest =>
    if c.isWhitespace then
      if inWs then collapseWsAux true rest
      else ' ' :: collapseWsAux true rest
    else c :: collapseWsAux false rest

/-- `String.prototype.indexOf` returning `none` for -1. -/
def idxOf (needle : List Char) : List Char → Option Nat
  | [] => if needle.isEmpty then some 0 else none
  | c :: rest =>
    if needle.isPrefixOf (c :: rest) then some 0
    else (idxOf needle rest).map fun i => i + 1

/-- One step of the highlight `replace` with the case-insensitive
alternation of the query tokens: the first listed token matching at the
current position (JavaScript alternation is first-match, not longest). -/
def firstMatchingToken (tokens : List String) (s : List Char) : Option String :=
  tokens.find? fun t =>
    !t.isEmpty && (t.toList.map Char.toLower).isPrefixOf (s.map Char.toLower)

/-- The global highlight replacement wrapping each match in a mark tag;
fuel-structural (fuel = length suffices since every match is nonempty). -/
def highlightFuel (tokens : List String) : Nat → List Char → List Char
  | 0, l => l
  | _ + 1, [] => []
  | n + 1, c :: rest =>
    match firstMatchingToken tokens (c :: rest) with
    | some t =>
      ("<mark class=\"search-highlight\">".toList ++ (c :: rest).take t.length ++
        "</mark>".toList) ++ highlightFuel tokens n ((c :: rest).drop t.length)
    | none => c :: highlightFuel tokens n rest

/-- `buildFuzzySnippet` (`src/api/search.ts` lines 233-264). -/
def buildFuzzySnippet (text : String) (queryTokens : List String) : String :=
  if jsTrim text = "" then ""
  else
    let cleaned := (jsTrim (String.mk (collapseWsAux false text.toList))).toList
    let lower := cleaned.map Char.toLower
    let firstIdx : Option Nat := queryTokens.foldl
      (fun acc tok =>
        match idxOf (tok.toList.map Char.toLower) lower with
        | none => acc
        | some i =>
          match acc with
          | none => some i
          | some j => if i < j then some i else some j)
      none
    let radius : Int := 80
    let startBase : Int :=
      match firstIdx with
      | none => 0
      | some i => (i : Int)
    let endBase : Int :=
      match firstIdx with
      | none => 160
      | some i => (i : Int) + radius
    let startI : Int := max 0 (startBase - radius)
    let endI : Int := min (cleaned.length : Int) endBase
    let snippet := (cleaned.drop startI.toNat).take (endI - startI).toNat
    let snippet := if startI > 0 then "...".toList ++ snippet else snippet
    let snippet := if endI < (cleaned.length : Int) then snippet ++ "...".toList
      else snippet
    let escaped := escapeHtml (String.mk snippet)
    if queryTokens.length > 0 then
      String.mk (highlightFuel queryTokens escaped.toList.length escaped.toList)
    else escaped

/-- One row of the `SELECT` in `searchSessions` (`src/api/search.ts` lines
557-570): the FTS columns joined with the meta timestamp, plus the
engine-computed snippet and bm25 rank. -/
structure ExactRow where
  sessionId : String
  source : String
  display : String
  project : String
  content : String
  snippet : String
  rank : Int
  timestamp : Int
deriving DecidableEq, Repr

/-- `SearchOptions` (`src/api/search.ts` lines 41-44). -/
structure SearchOptions where
  fuzzy : Option Bool
  limit : Option Int
deriving DecidableEq, Repr

/-- `SearchResponse` (`src/api/search.ts` lines 34-39); the `partial` field
is renamed, `partial` being a Lean keyword. -/
structure SearchResponse where
  query : String
  partialFlag : Bool
  coverage : SearchCoverage
  results : List HybridSearchResult
deriving DecidableEq, Repr

/-- `inferScore` (`src/api/search.ts` lines 283-291). -/
def inferScore (tier : Tier) (rank : Option Int) (order : Int) : Int :=
  match tier with
  | .t1 => 3000 - rank.getD 0
  | .t2 => 2000 - rank.getD 0
  | .t3 => 1000 - order

/-- FTS5 `MATCH` for the query strings `buildFtsQuery` produces (an AND of
single-token phrases): the row matches when every query token occurs as a
token of one of the indexed columns, under the unicode61 tokenizer (same
alphanumeric-run, case-folded tokenization as `tokenizeSearchQuery`).
Models the external SQLite engine from its documented contract. -/
def rowMatchesFts (tokens : List String) (r : FtsRow) : Bool :=
  tokens.all fun t =>
    (tokenizeSearchQuery (r.display ++ " " ++ r.project ++ " " ++ r.content)).contains t

/-- The exact-engine retrieval of `searchSessions`: the matching rows,
joined with the meta table for `COALESCE(session_timestamp, 0)`, carrying
the engine-supplied bm25 rank and snippet, ordered by rank ascending and
cut at the candidate limit.  `bm25` and `snippetF` are parameters modelling
the external engine's scoring and snippeting. -/
def ftsMatchRows (s : SearchState) (bm25 : FtsRow → Int) (snippetF : FtsRow → String)
    (tokens : List String) (source : Option String) (candidateLimit : Nat) :
    List ExactRow :=
  let matched := s.ftsRows.filter fun r =>
    rowMatchesFts tokens r &&
      (match source with
       | some src => r.source == src
       | none => true)
  let rows := matched.map fun r =>
    ({ sessionId := r.sessionId, source := r.source, display := r.display,
       project := r.project, content := r.content, snippet := snippetF r,
       rank := bm25 r,
       timestamp :=
         ((s.metaRows.find? fun m =>
             m.sessionId == r.sessionId && m.source == r.source).map
           fun m => m.sessionTimestamp).getD 0 } : ExactRow)
  (sortBy (fun a b => decide (a.rank ≤ b.rank)) rows).take candidateLimit

/-- The merge-map insertion for one exact row (`src/api/search.ts` lines
595-617). -/
def mergeExactRow (normalizedQuery : String) (m : List (String × HybridSearchResult))
    (row : ExactRow) : List (String × HybridSearchResult) :=
  let exact := determineExactSignals normalizedQuery
    (row.display ++ "\n" ++ row.project ++ "\n" ++ row.content)
  let tier : Tier := if exact.exactLiteral || exact.exactPhrase then .t1 else .t2
  mapSet m (makeSessionKey row.source row.sessionId)
    { sessionId := row.sessionId, source := row.source, display := row.display,
      project := row.project, snippet := row.snippet, timestamp := row.timestamp,
      tier := tier, score := inferScore tier (some row.rank) 0, rank := some row.rank,
      signals := { exactLiteral := exact.exactLiteral, exactPhrase := exact.exactPhrase,
                   exactTokens := exact.exactTokens, fuzzy := false } }

/-- The merge-map step for one fuzzy hit (`src/api/search.ts` lines
624-656), also threading the running `fuzzyOrder` counter. -/
def mergeFuzzyHit (s : SearchState) (source : Option String) (tokens : List String)
    (acc : List (String × HybridSearchResult) × Int) (fuzzyId : String) :
    List (String × HybridSearchResult) × Int :=
  let m := acc.1
  let fuzzyOrder := acc.2
  match mapGet s.fuzzyDocs fuzzyId with
  | none => (m, fuzzyOrder)
  | some doc =>
    if (match source with
        | some src => decide (doc.source ≠ src)
        | none => false) then (m, fuzzyOrder)
    else
      match mapGet m fuzzyId with
      | some existing =>
        (mapSet m fuzzyId
          { existing with
            score := existing.score + 10,
            signals := { existing.signals with fuzzy := true } }, fuzzyOrder)
      | none =>
        let snip := buildFuzzySnippet
          (if doc.content ≠ "" then doc.content
           else doc.display ++ "\n" ++ doc.project) tokens
        (mapSet m fuzzyId
          { sessionId := doc.sessionId, source := doc.source, display := doc.display,
            project := doc.project, snippet := snip, timestamp := doc.timestamp,
            tier := .t3, score := inferScore .t3 none fuzzyOrder, rank := none,
            signals := { exactLiteral := false, exactPhrase := false,
                         exactTokens := false, fuzzy := true } }, fuzzyOrder + 1)

/-- `searchSessions` (`src/api/search.ts` lines 528-675).  The external
engines are parameters: `engineFails` models the exact-engine query
throwing (caught by the source's try block), `bm25`/`snippetF` its scoring
and snippet generation, and `fuzzyEngine` the FlexSearch search (already
flattened to a list of identity keys, as `normalizeFuzzySearchResult`
does); `Date.now()` inside the coverage snapshot is the explicit `now`. -/
def searchSessions (engineFails : Bool) (bm25 : FtsRow → Int)
    (snippetF : FtsRow → String) (fuzzyEngine : String → List String)
    (s : SearchState) (query : String) (source : Option String)
    (options : SearchOptions) (now : Int) : SearchResponse :=
  let normalizedQuery := jsTrim query
  let cov := getCoverageSnapshot s now
  if !s.dbOpen || normalizedQuery = "" then
    { query := query, partialFlag := cov.partialFlag, coverage := cov.coverage,
      results := [] }
  else
    let tokens := tokenizeSearchQuery normalizedQuery
    let ftsQuery := buildFtsQuery normalizedQuery
    if ftsQuery = "" then
      { query := query, partialFlag := cov.partialFlag, coverage := cov.coverage,
        results := [] }
    else
      let limit : Int := min (max (options.limit.getD 50) 1) 100
      let includeFuzzy := options.fuzzy ≠ some false &&
        shouldUseFuzzyForQuery normalizedQuery
      let exactCandidateLimit : Int := max (limit * 10) 300
      if engineFails then
        { query := query, partialFlag := cov.partialFlag, coverage := cov.coverage,
          results := [] }
      else
        let exactRows := ftsMatchRows s bm25 snippetF tokens source
          exactCandidateLimit.toNat
        let merged := exactRows.foldl (mergeExactRow normalizedQuery) []
        let merged :=
          if includeFuzzy then
            ((fuzzyEngine normalizedQuery).foldl
              (mergeFuzzyHit s source tokens) (merged, 0)).1
          else merged
        let ranked := (rankMergedResults (merged.map fun p => p.2)).take limit.toNat
        { query := query, partialFlag := cov.partialFlag, coverage := cov.coverage,
          results := ranked }

/-! ### Concrete fixtures for the search scenarios -/

/-- A one-document state for the exact-only search witness. -/
def c10State : SearchState :=
  { initialSearchState with
    ftsRows := [{ sessionId := "s1", source := "claude", display := "Display",
                  project := "proj", content := "hello world" }],
    metaRows := [{ sessionId := "s1", source := "claude", contentHash := some "h",
                   sessionTimestamp := 42, lastIndexedAt := some 5 }],
    indexedIds := ["claude:s1"] }

/-- The single result of searching "hello" on `c10State` with fuzzy off. -/
def c10Result : HybridSearchResult :=
  { sessionId := "s1", source := "claude", display := "Display", project := "proj",
    snippet := "snippet", timestamp := 42, tier := Tier.t1, score := 3005,
    rank := some (-5),
    signals := { exactLiteral := true, exactPhrase := false, exactTokens := true,
                 fuzzy := false } }

/-- Identity-collision scenario: both sources expected for the same id. -/
def c7s1 : SearchState :=
  setExpectedSessions initialSearchState [("cid", "claude"), ("cid", "codex")]

/-- ... the shared sessionId indexed under claude ... -/
def c7s2 : SearchState :=
  indexSession c7s1 "cid" "claude" "Claude collision" "proj-a"
    "content uniqtoken" 100 "h1" 1000

/-- ... and then under codex, completing the collision scenario. -/
def c7s3 : SearchState :=
  indexSession c7s2 "cid" "codex" "Codex collision" "proj-b"
    "content uniqtoken" 101 "h2" 1001

/-! ## Theorems: query analysis, claims C2 and C9 -/

theorem length_quoteFtsToken (t : String) : 2 ≤ (quoteFtsToken t).length := by
  have hq : ("\"" : String).length = 1 := rfl
  simp [quoteFtsToken, String.length_append, hq]

theorem joinSpace_quoted_ne_empty (ts : List String) (h : ts ≠ []) :
    joinSpace (ts.map quoteFtsToken) ≠ "" := by
  match ts with
  | [] => exact absurd rfl h
  | [t] =>
    intro heq
    have h2 := length_quoteFtsToken t
    rw [show joinSpace ([t].map quoteFtsToken) = quoteFtsToken t from rfl] at heq
    rw [heq] at h2
    simp at h2
  | t :: u :: rest =>
    intro heq
    have h2 := length_quoteFtsToken t
    have : joinSpace ((t :: u :: rest).map quoteFtsToken)
        = quoteFtsToken t ++ " " ++ joinSpace ((u :: rest).map quoteFtsToken) := rfl
    rw [this] at heq
    have hlen := congrArg String.length heq
    rw [String.length_append, String.length_append] at hlen
    simp at hlen
    omega

/-- C2 counterexample: on the query "ab abc" the source's `buildFtsQuery`
keeps the length-2 token "ab" even though the longer token "abc" is present,
while the spec's short-token-dropping builder would discard it; the claim is
false at this input. -/
theorem buildFtsQuery_c2_counterexample :
    buildFtsQuery "ab abc" = "\"ab\" \"abc\"" ∧
    buildExactQuerySpec "ab abc" = "\"abc\"" ∧
    buildFtsQuery "ab abc" ≠ buildExactQuerySpec "ab abc" := by
  refine ⟨by decide, by decide, by decide⟩

/-- C2 (amended): for every query string, `buildFtsQuery` keeps every token
regardless of length - each token double-quoted (interior quotes doubled)
and joined with single spaces - and it returns the empty string exactly when
the query tokenizes to zero tokens. -/
theorem buildFtsQuery_c2_amended (query : String) :
    buildFtsQuery query = joinSpace ((tokenizeSearchQuery query).map quoteFtsToken) ∧
    (buildFtsQuery query = "" ↔ tokenizeSearchQuery query = []) := by
  by_cases h : tokenizeSearchQuery query = []
  · constructor
    · simp [buildFtsQuery, h, joinSpace]
    · simp [buildFtsQuery, h]
  · constructor
    · simp [buildFtsQuery, h]
    · simp only [buildFtsQuery, h, if_false, iff_false]
      exact joinSpace_quoted_ne_empty _ h

/-- C9: `shouldUseFuzzyForQuery` returns false exactly when the trimmed
query has length under 3 or tokenizes to zero tokens, and in particular
gives false on "a" and "wa" and true on "was". -/
theorem shouldUseFuzzyForQuery_c9 :
    (∀ query : String, shouldUseFuzzyForQuery query = true ↔
      3 ≤ (jsTrim query).length ∧ tokenizeSearchQuery (jsTrim query) ≠ []) ∧
    shouldUseFuzzyForQuery "a" = false ∧
    shouldUseFuzzyForQuery "wa" = false ∧
    shouldUseFuzzyForQuery "was" = true := by
  refine ⟨?_, by decide, by decide, by decide⟩
  intro query
  by_cases h : (jsTrim query).length < 3
  · simp only [shouldUseFuzzyForQuery, h, if_true]
    constructor
    · intro hf
      exact absurd hf (by simp)
    · intro hf
      omega
  · simp [shouldUseFuzzyForQuery, h, List.length_pos]
    omega

/-! ### Exact-signal lemmas and claim C4 -/

theorem occursIn_iff (needle : List Char) :
    (hay : List Char) →
    (occursIn needle hay = true ↔ ∃ pre post, hay = pre ++ needle ++ post)
  | [] => by
    rw [occursIn]
    rw [List.isPrefixOf_iff_prefix]
    constructor
    · intro h
      obtain ⟨t, ht⟩ := h
      exact ⟨[], t, by simp [← ht]⟩
    · rintro ⟨pre, post, hp⟩
      have hpre : pre = [] := by
        cases pre <;> simp_all
      subst hpre
      have hn : needle = [] := by
        cases needle <;> simp_all
      simp [hn]
  | c :: rest => by
    rw [occursIn]
    constructor
    · intro h
      rcases Bool.or_eq_true_iff.mp h with h1 | h2
      · obtain ⟨t, ht⟩ := List.isPrefixOf_iff_prefix.mp h1
        exact ⟨[], t, by simp [← ht]⟩
      · obtain ⟨pre, post, hp⟩ := (occursIn_iff needle rest).mp h2
        exact ⟨c :: pre, post, by simp [hp]⟩
    · rintro ⟨pre, post, hp⟩
      refine Bool.or_eq_true_iff.mpr ?_
      match pre, hp with
      | [], hp => exact Or.inl (List.isPrefixOf_iff_prefix.mpr ⟨post, by simp [hp]⟩)
      | p :: pre', hp =>
        have h2 : rest = pre' ++ needle ++ post := by
          have h3 := hp
          simp only [List.cons_append, List.cons.injEq] at h3
          exact h3.2
        exact Or.inr ((occursIn_iff needle rest).mpr ⟨pre', post, h2⟩)

theorem tokenRunsAux_good (p : Char → Bool) :
    (l acc : List Char) → (∀ c ∈ acc, p c = true) →
    ∀ r ∈ tokenRunsAux p l acc, r ≠ [] ∧ ∀ c ∈ r, p c = true
  | [], acc, hacc => by
    rw [tokenRunsAux]
    split
    · simp
    · next hne =>
      intro r hr
      rw [List.mem_singleton] at hr
      subst hr
      refine ⟨by simpa using hne, ?_⟩
      intro c hc
      exact hacc c (List.mem_reverse.mp hc)
  | c :: cs, acc, hacc => by
    rw [tokenRunsAux]
    split
    · next hpc =>
      refine tokenRunsAux_good p cs (c :: acc) ?_
      intro d hd
      rcases List.mem_cons.mp hd with rfl | hd'
      · exact hpc
      · exact hacc d hd'
    · split
      · exact tokenRunsAux_good p cs [] (by simp)
      · next hne =>
        intro r hr
        rcases List.mem_cons.mp hr with rfl | hr'
        · refine ⟨by simpa using hne, ?_⟩
          intro d hd
          exact hacc d (List.mem_reverse.mp hd)
        · exact tokenRunsAux_good p cs [] (by simp) r hr'

theorem tokenizeSearchQuery_good (q : String) :
    ∀ t ∈ tokenizeSearchQuery q, t.toList ≠ [] ∧ ∀ c ∈ t.toList, isTokenChar c = true := by
  intro t ht
  rw [tokenizeSearchQuery, List.mem_filter] at ht
  obtain ⟨hmem, _⟩ := ht
  rw [List.mem_map] at hmem
  obtain ⟨run, hrun, hmk⟩ := hmem
  have hgood := tokenRunsAux_good isTokenChar
    ((q.toList.map Char.toLower)) [] (by simp) run hrun
  subst hmk
  exact hgood

theorem takeWhile_append_of_all {p : Char → Bool} :
    (a : List Char) → (x : Char) → (y : List Char) →
    (∀ c ∈ a, p c = true) → p x = false →
    (a ++ x :: y).takeWhile p = a ∧ (a ++ x :: y).dropWhile p = x :: y
  | [], x, y, _, hx => by
    constructor
    · simp [List.takeWhile_cons, hx]
    · simp [List.dropWhile_cons, hx]
  | c :: a', x, y, ha, hx => by
    have hc : p c = true := ha c (by simp)
    have ih := takeWhile_append_of_all a' x y (fun d hd => ha d (by simp [hd])) hx
    constructor
    · simp [List.takeWhile_cons, hc, ih.1]
    · simp [List.dropWhile_cons, hc, ih.2]

theorem interleaveSeps_cons (t : String) (rest : List String) (seps : List (List Char)) :
    ∃ x, interleaveSeps (t :: rest) seps = t.toList ++ x := by
  match rest, seps with
  | [], _ => exact ⟨[], by simp [interleaveSeps]⟩
  | u :: rest', [] => exact ⟨[], by simp [interleaveSeps]⟩
  | u :: rest', s :: seps' =>
    exact ⟨s ++ interleaveSeps (u :: rest') seps', by simp [interleaveSeps]⟩

theorem sepSeqMatchAt_iff :
    (tokens : List String) →
    (∀ t ∈ tokens, t.toList ≠ [] ∧ ∀ c ∈ t.toList, isTokenChar c = true) →
    tokens ≠ [] → (s : List Char) →
    (sepSeqMatchAt tokens s = true ↔
      ∃ seps post, seps.length + 1 = tokens.length ∧
        (∀ sp ∈ seps, sp ≠ [] ∧ ∀ c ∈ sp, isTokenChar c = false) ∧
        s = interleaveSeps tokens seps ++ post)
  | [], _, hne, _ => absurd rfl hne
  | [t], _, _, s => by
    rw [show sepSeqMatchAt [t] s = t.toList.isPrefixOf s from rfl]
    rw [List.isPrefixOf_iff_prefix]
    constructor
    · rintro ⟨post, hpost⟩
      exact ⟨[], post, by rw [← hpost]; simp [interleaveSeps]⟩
    · rintro ⟨seps, post, hlen, _, hs⟩
      have hseps : seps = [] := by
        cases seps <;> simp_all
      subst hseps
      exact ⟨post, by rw [hs]; simp [interleaveSeps]⟩
  | t :: u :: rest, htok, _, s => by
    have hmatch : sepSeqMatchAt (t :: u :: rest) s =
        (t.toList.isPrefixOf s &&
          (!((s.drop t.toList.length).takeWhile fun c => !isTokenChar c).isEmpty &&
            sepSeqMatchAt (u :: rest)
              ((s.drop t.toList.length).dropWhile fun c => !isTokenChar c))) := rfl
    rw [hmatch]
    have htok' : ∀ v ∈ u :: rest, v.toList ≠ [] ∧ ∀ c ∈ v.toList, isTokenChar c = true :=
      fun v hv => htok v (List.mem_cons_of_mem t hv)
    have ih := sepSeqMatchAt_iff (u :: rest) htok' (by simp)
    constructor
    · intro h
      simp only [Bool.and_eq_true] at h
      obtain ⟨hpre, hsep, hrest⟩ := h
      obtain ⟨after, hafter⟩ := List.isPrefixOf_iff_prefix.mp hpre
      have hdrop : s.drop t.toList.length = after := by
        rw [← hafter, List.drop_left]
      rw [hdrop] at hsep hrest
      obtain ⟨seps', post, hlen, hgood, hbeyond⟩ := (ih _).mp hrest
      refine ⟨after.takeWhile (fun c => !isTokenChar c) :: seps', post, ?_, ?_, ?_⟩
      · simp at hlen ⊢
        omega
      · intro sp hsp
        rcases List.mem_cons.mp hsp with rfl | hsp'
        · refine ⟨by simpa using hsep, ?_⟩
          intro c hc
          simpa using List.mem_takeWhile_imp hc
        · exact hgood sp hsp'
      · have hsplit := List.takeWhile_append_dropWhile (fun c => !isTokenChar c) after
        calc s = t.toList ++ after := hafter.symm
          _ = t.toList ++ (after.takeWhile (fun c => !isTokenChar c) ++
                after.dropWhile (fun c => !isTokenChar c)) := by rw [hsplit]
          _ = t.toList ++ (after.takeWhile (fun c => !isTokenChar c) ++
                (interleaveSeps (u :: rest) seps' ++ post)) := by rw [← hbeyond]
          _ = interleaveSeps (t :: u :: rest)
                (after.takeWhile (fun c => !isTokenChar c) :: seps') ++ post := by
              simp [interleaveSeps]
    · rintro ⟨seps, post, hlen, hgood, hs⟩
      match seps, hlen with
      | sp :: seps', hlen =>
        have hspne : sp ≠ [] := (hgood sp (by simp)).1
        have hspbad : ∀ c ∈ sp, isTokenChar c = false :=
          fun c hc => (hgood sp (by simp)).2 c hc
        obtain ⟨x, hx⟩ := interleaveSeps_cons u rest seps'
        have hune : u.toList ≠ [] := (htok' u (by simp)).1
        match hu : u.toList, hune with
        | cu :: curest, _ =>
          have hcu : isTokenChar cu = true := by
            have := (htok' u (by simp)).2 cu (by rw [hu]; simp)
            exact this
          have hs' : s = t.toList ++ (sp ++ (cu :: (curest ++ x ++ post))) := by
            rw [hs]
            simp only [interleaveSeps, hx, hu]
            simp
          have hdrop : s.drop t.toList.length = sp ++ cu :: (curest ++ x ++ post) := by
            rw [hs', List.drop_left]
          have htw := takeWhile_append_of_all (p := fun c => !isTokenChar c)
            sp cu (curest ++ x ++ post)
            (fun c hc => by simpa using hspbad c hc) (by simp [hcu])
          simp only [Bool.and_eq_true]
          refine ⟨?_, ?_, ?_⟩
          · exact List.isPrefixOf_iff_prefix.mpr ⟨_, hs'.symm⟩
          · rw [hdrop, htw.1]
            simpa using hspne
          · rw [hdrop, htw.2]
            refine (ih _).mpr ⟨seps', post, by simp at hlen ⊢; omega, ?_, ?_⟩
            · exact fun v hv => hgood v (List.mem_cons_of_mem sp hv)
            · rw [hx, hu]
              simp

theorem sepRegexTestAux_iff (tokens : List String) :
    (s : List Char) →
    (sepRegexTestAux tokens s = true ↔
      ∃ pre rest, s = pre ++ rest ∧ sepSeqMatchAt tokens rest = true)
  | [] => by
    rw [sepRegexTestAux]
    constructor
    · intro h
      exact ⟨[], [], rfl, h⟩
    · rintro ⟨pre, rest, hs, hm⟩
      have hpre : pre = [] ∧ rest = [] := by
        constructor <;> cases pre <;> simp_all
      rw [← hpre.2]
      exact hm
  | c :: s' => by
    rw [sepRegexTestAux]
    constructor
    · intro h
      rcases Bool.or_eq_true_iff.mp h with h1 | h2
      · exact ⟨[], c :: s', rfl, h1⟩
      · obtain ⟨pre, rest, hs, hm⟩ := (sepRegexTestAux_iff tokens s').mp h2
        exact ⟨c :: pre, rest, by simp [hs], hm⟩
    · rintro ⟨pre, rest, hs, hm⟩
      refine Bool.or_eq_true_iff.mpr ?_
      match pre, hs with
      | [], hs =>
        have hr : rest = c :: s' := by simpa using hs.symm
        exact Or.inl (hr ▸ hm)
      | p :: pre', hs =>
        have h2 : s' = pre' ++ rest := by
          have h3 := hs
          simp only [List.cons_append, List.cons.injEq] at h3
          exact h3.2
        exact Or.inr ((sepRegexTestAux_iff tokens s').mpr ⟨pre', rest, h2, hm⟩)

theorem sepRegexTest_iff_occurs (tokens : List String) (hay : List Char)
    (htok : ∀ t ∈ tokens, t.toList ≠ [] ∧ ∀ c ∈ t.toList, isTokenChar c = true)
    (hne : tokens ≠ []) :
    sepRegexTestAux tokens hay = true ↔ SepPhraseOccurs tokens hay := by
  rw [sepRegexTestAux_iff]
  constructor
  · rintro ⟨pre, rest, hs, hm⟩
    obtain ⟨seps, post, hlen, hgood, hrest⟩ :=
      (sepSeqMatchAt_iff tokens htok hne rest).mp hm
    exact ⟨pre, seps, post, hlen, hgood, by rw [hs, hrest, List.append_assoc]⟩
  · rintro ⟨pre, seps, post, hlen, hgood, hhay⟩
    refine ⟨pre, interleaveSeps tokens seps ++ post, by rw [hhay, List.append_assoc], ?_⟩
    exact (sepSeqMatchAt_iff tokens htok hne _).mpr ⟨seps, post, hlen, hgood, rfl⟩

theorem stringMk_eq_empty_iff (cs : List Char) : String.mk cs = "" ↔ cs = [] := by
  constructor
  · intro h
    have := congrArg String.toList h
    simpa using this
  · intro h
    rw [h]

theorem stringToList_eq_nil_iff (s : String) : s.toList = [] ↔ s = "" := by
  cases s with
  | mk data => exact Iff.symm (stringMk_eq_empty_iff data)

/-- C4: `determineExactSignals` returns, for every nonempty trimmed query:
`exactLiteral` true iff the trimmed lowercased query occurs verbatim in the
markup-stripped lowercased haystack; `exactTokens` true iff the query has at
least one token and each token occurs in the haystack; `exactPhrase` true
iff the query has at least two tokens and either the space-joined tokens
occur literally or the tokens occur in order separated by runs of one or
more non-alphanumeric characters (the separator-regex match); and on the
concrete input "wa-sqlite" vs "Using WA-SQLite in browser" all three
signals are true; for a query whose trim is empty the function returns all
three signals false by the early exit. -/
theorem determineExactSignals_c4 :
    (∀ query haystack : String, jsTrim query ≠ "" →
      ((determineExactSignals query haystack).exactLiteral = true ↔
        ∃ pre post, (stripHtml haystack).toList.map Char.toLower =
          pre ++ (jsTrim query).toList.map Char.toLower ++ post) ∧
      ((determineExactSignals query haystack).exactTokens = true ↔
        tokenizeSearchQuery (String.mk ((jsTrim query).toList.map Char.toLower)) ≠ [] ∧
          ∀ t ∈ tokenizeSearchQuery (String.mk ((jsTrim query).toList.map Char.toLower)),
            ∃ pre post, (stripHtml haystack).toList.map Char.toLower =
              pre ++ t.toList ++ post) ∧
      ((determineExactSignals query haystack).exactPhrase = true ↔
        2 ≤ (tokenizeSearchQuery
            (String.mk ((jsTrim query).toList.map Char.toLower))).length ∧
          ((∃ pre post, (stripHtml haystack).toList.map Char.toLower =
              pre ++ (joinSpace (tokenizeSearchQuery
                (String.mk ((jsTrim query).toList.map Char.toLower)))).toList ++ post) ∨
            SepPhraseOccurs
              (tokenizeSearchQuery (String.mk ((jsTrim query).toList.map Char.toLower)))
              ((stripHtml haystack).toList.map Char.toLower)))) ∧
    (∀ query haystack : String, jsTrim query = "" →
      determineExactSignals query haystack =
        { exactLiteral := false, exactPhrase := false, exactTokens := false }) ∧
    determineExactSignals "wa-sqlite" "Using WA-SQLite in browser" =
      { exactLiteral := true, exactPhrase := true, exactTokens := true } := by
  refine ⟨?_, ?_, by decide⟩
  case refine_2 =>
    intro query haystack hq
    have hne : String.mk ((jsTrim query).toList.map Char.toLower) = "" := by
      simp only [stringMk_eq_empty_iff, List.map_eq_nil_iff, stringToList_eq_nil_iff]
      exact hq
    simp only [determineExactSignals]
    rw [if_pos hne]
  intro query haystack hq
  have hne : String.mk ((jsTrim query).toList.map Char.toLower) ≠ "" := by
    simp only [ne_eq, stringMk_eq_empty_iff, List.map_eq_nil_iff,
      stringToList_eq_nil_iff]
    exact hq
  have hunfold :
      determineExactSignals query haystack =
        { exactLiteral := occursIn
            ((String.mk ((jsTrim query).toList.map Char.toLower)).toList)
            ((stripHtml haystack).toList.map Char.toLower),
          exactPhrase :=
            (if (tokenizeSearchQuery
                (String.mk ((jsTrim query).toList.map Char.toLower))).length > 1 then
              occursIn (joinSpace (tokenizeSearchQuery
                  (String.mk ((jsTrim query).toList.map Char.toLower)))).toList
                ((stripHtml haystack).toList.map Char.toLower) ||
                sepRegexTestAux (tokenizeSearchQuery
                  (String.mk ((jsTrim query).toList.map Char.toLower)))
                  ((stripHtml haystack).toList.map Char.toLower)
            else false),
          exactTokens :=
            decide ((tokenizeSearchQuery
              (String.mk ((jsTrim query).toList.map Char.toLower))).length > 0) &&
              (tokenizeSearchQuery
                (String.mk ((jsTrim query).toList.map Char.toLower))).all
                fun t => occursIn t.toList
                  ((stripHtml haystack).toList.map Char.toLower) } := by
    simp only [determineExactSignals]
    rw [if_neg hne]
  rw [hunfold]
  refine ⟨?_, ?_, ?_⟩
  · exact occursIn_iff _ _
  · simp only [Bool.and_eq_true, decide_eq_true_eq, List.all_eq_true]
    constructor
    · rintro ⟨h1, h2⟩
      refine ⟨by simpa [List.length_pos] using h1, ?_⟩
      intro t ht
      exact (occursIn_iff _ _).mp (h2 t ht)
    · rintro ⟨h1, h2⟩
      refine ⟨by simpa [List.length_pos] using h1, ?_⟩
      intro t ht
      exact (occursIn_iff _ _).mpr (h2 t ht)
  · by_cases hlen :
      (tokenizeSearchQuery (String.mk ((jsTrim query).toList.map Char.toLower))).length > 1
    · rw [if_pos hlen]
      have htoks := tokenizeSearchQuery_good
        (String.mk ((jsTrim query).toList.map Char.toLower))
      have hne' : tokenizeSearchQuery
          (String.mk ((jsTrim query).toList.map Char.toLower)) ≠ [] := by
        intro hh
        rw [hh] at hlen
        simp at hlen
      rw [Bool.or_eq_true_iff]
      rw [occursIn_iff]
      rw [sepRegexTest_iff_occurs _ _ (fun t ht => htoks t ht) hne']
      exact ⟨fun h => ⟨by omega, h⟩, fun h => h.2⟩
    · rw [if_neg hlen]
      constructor
      · intro h
        simp at h
      · rintro ⟨h1, _⟩
        omega

/-! ### Claim C5: coverage accounting -/

/-- C5: `computeCoverageSnapshot` counts, per source, the expected ids
present in the indexed set under the bare id or the composite source:id
key; the totals are the sums of the per-source counts (so indexed never
exceeds total), and `partial` is set exactly when `indexedSessions <
totalSessions` or `dirtyCount > 0`; on expected claude:[a,b], codex:[c]
with indexed [a] it reports partial, 3 total, 1 indexed. -/
theorem computeCoverageSnapshot_c5 :
    (∀ (expected : List (String × List String)) (indexed : List String)
        (dirtyCount : Nat) (now : Int),
      (computeCoverageSnapshot expected indexed dirtyCount now).coverage.bySource =
        expected.map (fun p =>
          let cnt := (p.2.filter fun id =>
            indexed.contains id || indexed.contains (makeSessionKey p.1 id)).length
          (p.1, ({ indexed := cnt, total := p.2.length } : SourceCoverage))) ∧
      (computeCoverageSnapshot expected indexed dirtyCount now).coverage.totalSessions =
        ((computeCoverageSnapshot expected indexed dirtyCount now).coverage.bySource.map
          fun p => p.2.total).sum ∧
      (computeCoverageSnapshot expected indexed dirtyCount now).coverage.indexedSessions =
        ((computeCoverageSnapshot expected indexed dirtyCount now).coverage.bySource.map
          fun p => p.2.indexed).sum ∧
      (computeCoverageSnapshot expected indexed dirtyCount now).coverage.indexedSessions ≤
        (computeCoverageSnapshot expected indexed dirtyCount now).coverage.totalSessions ∧
      ((computeCoverageSnapshot expected indexed dirtyCount now).partialFlag = true ↔
        (computeCoverageSnapshot expected indexed dirtyCount now).coverage.indexedSessions <
            (computeCoverageSnapshot expected indexed dirtyCount now).coverage.totalSessions ∨
          0 < dirtyCount)) ∧
    (computeCoverageSnapshot [("claude", ["a", "b"]), ("codex", ["c"])]
        ["a"] 0 0).partialFlag = true ∧
    (computeCoverageSnapshot [("claude", ["a", "b"]), ("codex", ["c"])]
        ["a"] 0 0).coverage.totalSessions = 3 ∧
    (computeCoverageSnapshot [("claude", ["a", "b"]), ("codex", ["c"])]
        ["a"] 0 0).coverage.indexedSessions = 1 := by
  refine ⟨?_, by decide, by decide, by decide⟩
  intro expected indexed dirtyCount now
  refine ⟨rfl, rfl, rfl, ?_, ?_⟩
  · simp only [computeCoverageSnapshot, List.map_map]
    refine List.sum_le_sum ?_
    intro p _
    simp only [Function.comp]
    exact List.length_filter_le _ _
  · simp only [computeCoverageSnapshot, Bool.or_eq_true_iff, decide_eq_true_eq]

/-! ### Sorting infrastructure lemmas -/

theorem mergeByFuel_congr (le : α → α → Bool) :
    (m n : Nat) → (xs ys : List α) → xs.length + ys.length ≤ m →
      xs.length + ys.length ≤ n → mergeByFuel le m xs ys = mergeByFuel le n xs ys
  | m, n, [], ys, _, _ => by
    cases m <;> cases n <;> simp_all [mergeByFuel]
  | m, n, x :: xs, [], hm, hn => by
    cases m <;> cases n <;> simp_all [mergeByFuel]
  | m + 1, n + 1, x :: xs, y :: ys, hm, hn => by
    simp only [mergeByFuel]
    have h1 : xs.length + (y :: ys).length ≤ m := by simp_all; omega
    have h2 : xs.length + (y :: ys).length ≤ n := by simp_all; omega
    have h3 : (x :: xs).length + ys.length ≤ m := by simp_all; omega
    have h4 : (x :: xs).length + ys.length ≤ n := by simp_all; omega
    rw [mergeByFuel_congr le m n xs (y :: ys) h1 h2,
      mergeByFuel_congr le m n (x :: xs) ys h3 h4]
  | 0, _, x :: xs, y :: ys, hm, _ => by simp at hm
  | _ + 1, 0, x :: xs, y :: ys, _, hn => by simp at hn

theorem mergeBy_nil_left (le : α → α → Bool) (ys : List α) :
    mergeBy le [] ys = ys := by
  cases ys <;> rfl

theorem mergeBy_nil_right (le : α → α → Bool) (xs : List α) :
    mergeBy le xs [] = xs := by
  cases xs <;> simp [mergeBy, mergeByFuel]

theorem mergeBy_cons_cons (le : α → α → Bool) (x y : α) (xs ys : List α) :
    mergeBy le (x :: xs) (y :: ys) =
      if le x y then x :: mergeBy le xs (y :: ys)
      else y :: mergeBy le (x :: xs) ys := by
  show mergeByFuel le ((x :: xs).length + (y :: ys).length) (x :: xs) (y :: ys) = _
  have hlen : (x :: xs).length + (y :: ys).length
      = ((x :: xs).length + ys.length) + 1 := by simp; omega
  rw [hlen]
  simp only [mergeByFuel]
  rw [mergeByFuel_congr le ((x :: xs).length + ys.length) (xs.length + (y :: ys).length)
      xs (y :: ys) (by simp; omega) (le_refl _)]
  rfl

theorem sortByFuel_congr (le : α → α → Bool) :
    (m n : Nat) → (l : List α) → l.length ≤ m → l.length ≤ n →
      sortByFuel le m l = sortByFuel le n l
  | 0, n, l, hm, _ => by
    have : l = [] := List.length_eq_zero.mp (by omega)
    subst this
    cases n <;> simp [sortByFuel]
  | m + 1, 0, l, _, hn => by
    have : l = [] := List.length_eq_zero.mp (by omega)
    subst this
    simp [sortByFuel]
  | m + 1, n + 1, l, hm, hn => by
    simp only [sortByFuel]
    by_cases h : l.length ≤ 1
    · simp [h]
    · simp only [h, if_false]
      rw [sortByFuel_congr le m n (l.take (l.length / 2))
          (by simp [List.length_take]; omega) (by simp [List.length_take]; omega),
        sortByFuel_congr le m n (l.drop (l.length / 2))
          (by simp [List.length_drop]; omega) (by simp [List.length_drop]; omega)]

/-- The defining recurrence of `sortBy`. -/
theorem sortBy_eq (le : α → α → Bool) (l : List α) :
    sortBy le l =
      if l.length ≤ 1 then l
      else
        mergeBy le (sortBy le (l.take (l.length / 2)))
          (sortBy le (l.drop (l.length / 2))) := by
  by_cases h : l.length ≤ 1
  · simp only [h, if_true]
    show sortByFuel le l.length l = l
    match l, h with
    | [], _ => rfl
    | [a], _ => rfl
  · simp only [h, if_false]
    show sortByFuel le l.length l = _
    have hl : l.length = (l.length - 1) + 1 := by omega
    rw [hl]
    simp only [sortByFuel]
    rw [if_neg (by omega)]
    rw [sortByFuel_congr le (l.length - 1) (l.take (l.length / 2)).length
        (l.take (l.length / 2)) (by simp [List.length_take]; omega) (le_refl _),
      sortByFuel_congr le (l.length - 1) (l.drop (l.length / 2)).length
        (l.drop (l.length / 2)) (by simp [List.length_drop]; omega) (le_refl _)]
    rw [← hl]
    rfl

theorem mergeBy_perm (le : α → α → Bool) :
    (xs ys : List α) → (mergeBy le xs ys).Perm (xs ++ ys)
  | [], ys => by simp [mergeBy_nil_left]
  | x :: xs, [] => by simp [mergeBy_nil_right]
  | x :: xs, y :: ys => by
    rw [mergeBy_cons_cons]
    split
    · exact (mergeBy_perm le xs (y :: ys)).cons x
    · exact ((mergeBy_perm le (x :: xs) ys).cons y).trans List.perm_middle.symm
termination_by xs ys => xs.length + ys.length

theorem sortBy_perm (le : α → α → Bool) (l : List α) : (sortBy le l).Perm l := by
  rw [sortBy_eq]
  split
  · exact List.Perm.refl l
  · refine ((mergeBy_perm le _ _).trans ?_)
    have h1 := sortBy_perm le (l.take (l.length / 2))
    have h2 := sortBy_perm le (l.drop (l.length / 2))
    exact (h1.append h2).trans (by rw [List.take_append_drop])
termination_by l.length
decreasing_by
  · simp only [List.length_take]
    omega
  · simp only [List.length_drop]
    omega

theorem mem_sortBy {le : α → α → Bool} {l : List α} {a : α} :
    a ∈ sortBy le l ↔ a ∈ l :=
  (sortBy_perm le l).mem_iff

theorem pairwise_of_length_le_one {R : α → α → Prop} {l : List α}
    (h : l.length ≤ 1) : l.Pairwise R := by
  match l with
  | [] => exact List.Pairwise.nil
  | [a] => exact List.pairwise_singleton R a
  | a :: b :: rest => simp at h

theorem mergeBy_pairwise {R : α → α → Prop} (le : α → α → Bool) :
    (xs ys : List α) →
    (∀ a b c, a ∈ xs ++ ys → b ∈ xs ++ ys → c ∈ xs ++ ys → R a b → R b c → R a c) →
    (∀ x ∈ xs, ∀ y ∈ ys, le x y = true → R x y) →
    (∀ x ∈ xs, ∀ y ∈ ys, le x y = false → R y x) →
    xs.Pairwise R → ys.Pairwise R → (mergeBy le xs ys).Pairwise R
  | [], ys, _, _, _, _, hys => by simpa [mergeBy_nil_left] using hys
  | x :: xs, [], _, _, _, hxs, _ => by simpa [mergeBy_nil_right] using hxs
  | x :: xs, y :: ys, htrans, hT, hF, hxs, hys => by
    rw [mergeBy_cons_cons]
    split
    · next hle =>
      refine List.Pairwise.cons ?_ ?_
      · intro z hz
        have hz' := (mergeBy_perm le xs (y :: ys)).mem_iff.mp hz
        rcases List.mem_append.mp hz' with hzl | hzr
        · exact (List.pairwise_cons.mp hxs).1 z hzl
        · have hxy : R x y := hT x (by simp) y (by simp) hle
          rcases List.mem_cons.mp hzr with rfl | hzys
          · exact hxy
          · have hyz : R y z := (List.pairwise_cons.mp hys).1 z hzys
            exact htrans x y z (by simp) (by simp) (by simp [hzys]) hxy hyz
      · refine mergeBy_pairwise le xs (y :: ys) ?_ ?_ ?_
          (List.pairwise_cons.mp hxs).2 hys
        · intro a b c ha hb hc
          refine htrans a b c ?_ ?_ ?_ <;>
            · first
              | exact List.mem_append.mpr
                  (List.mem_append.mp ha |>.imp (List.mem_cons_of_mem x) id)
              | exact List.mem_append.mpr
                  (List.mem_append.mp hb |>.imp (List.mem_cons_of_mem x) id)
              | exact List.mem_append.mpr
                  (List.mem_append.mp hc |>.imp (List.mem_cons_of_mem x) id)
        · exact fun a ha b hb hab => hT a (List.mem_cons_of_mem x ha) b hb hab
        · exact fun a ha b hb hab => hF a (List.mem_cons_of_mem x ha) b hb hab
    · next hle =>
      have hle' : le x y = false := by
        revert hle
        cases le x y <;> simp
      refine List.Pairwise.cons ?_ ?_
      · intro z hz
        have hz' := (mergeBy_perm le (x :: xs) ys).mem_iff.mp hz
        have hyx : R y x := hF x (by simp) y (by simp) hle'
        rcases List.mem_append.mp hz' with hzl | hzr
        · rcases List.mem_cons.mp hzl with rfl | hzxs
          · exact hyx
          · have hxz : R x z := (List.pairwise_cons.mp hxs).1 z hzxs
            exact htrans y x z (by simp) (by simp) (by simp [hzxs]) hyx hxz
        · exact (List.pairwise_cons.mp hys).1 z hzr
      · refine mergeBy_pairwise le (x :: xs) ys ?_ ?_ ?_
          hxs (List.pairwise_cons.mp hys).2
        · intro a b c ha hb hc
          refine htrans a b c ?_ ?_ ?_ <;>
            · first
              | exact List.mem_append.mpr
                  (List.mem_append.mp ha |>.imp id (List.mem_cons_of_mem y))
              | exact List.mem_append.mpr
                  (List.mem_append.mp hb |>.imp id (List.mem_cons_of_mem y))
              | exact List.mem_append.mpr
                  (List.mem_append.mp hc |>.imp id (List.mem_cons_of_mem y))
        · exact fun a ha b hb hab => hT a ha b (List.mem_cons_of_mem y hb) hab
        · exact fun a ha b hb hab => hF a ha b (List.mem_cons_of_mem y hb) hab
termination_by xs ys => xs.length + ys.length

theorem sortBy_pairwise {R : α → α → Prop} (le : α → α → Bool) (l : List α)
    (htrans : ∀ a b c, a ∈ l → b ∈ l → c ∈ l → R a b → R b c → R a c)
    (hTF : ∀ a b, a ∈ l → b ∈ l → (le a b = true → R a b) ∧ (le a b = false → R b a)) :
    (sortBy le l).Pairwise R := by
  rw [sortBy_eq]
  split
  · next h => exact pairwise_of_length_le_one h
  · next h =>
    have hsub1 : ∀ a, a ∈ sortBy le (l.take (l.length / 2)) → a ∈ l :=
      fun a ha => List.take_subset _ _ (mem_sortBy.mp ha)
    have hsub2 : ∀ a, a ∈ sortBy le (l.drop (l.length / 2)) → a ∈ l :=
      fun a ha => List.drop_subset _ _ (mem_sortBy.mp ha)
    refine mergeBy_pairwise le _ _ ?_ ?_ ?_ ?_ ?_
    · intro a b c ha hb hc
      refine htrans a b c ?_ ?_ ?_ <;>
        · first
          | exact (List.mem_append.mp ha).elim (hsub1 a) (hsub2 a)
          | exact (List.mem_append.mp hb).elim (hsub1 b) (hsub2 b)
          | exact (List.mem_append.mp hc).elim (hsub1 c) (hsub2 c)
    · exact fun a ha b hb hab => (hTF a b (hsub1 a ha) (hsub2 b hb)).1 hab
    · exact fun a ha b hb hab => (hTF a b (hsub1 a ha) (hsub2 b hb)).2 hab
    · refine sortBy_pairwise le _ ?_ ?_
      · exact fun a b c ha hb hc => htrans a b c (List.take_subset _ _ ha)
          (List.take_subset _ _ hb) (List.take_subset _ _ hc)
      · exact fun a b ha hb => hTF a b (List.take_subset _ _ ha) (List.take_subset _ _ hb)
    · refine sortBy_pairwise le _ ?_ ?_
      · exact fun a b c ha hb hc => htrans a b c (List.drop_subset _ _ ha)
          (List.drop_subset _ _ hb) (List.drop_subset _ _ hc)
      · exact fun a b ha hb => hTF a b (List.drop_subset _ _ ha) (List.drop_subset _ _ hb)
termination_by l.length
decreasing_by
  · simp only [List.length_take]
    omega
  · simp only [List.length_drop]
    omega

/-- Weaken a `Pairwise` relation using membership in the list. -/
theorem pairwise_imp_mem {R S : α → α → Prop} :
    (l : List α) → (∀ a b, a ∈ l → b ∈ l → R a b → S a b) →
    l.Pairwise R → l.Pairwise S
  | [], _, _ => List.Pairwise.nil
  | x :: xs, h, hp => by
    refine List.Pairwise.cons ?_ ?_
    · intro z hz
      exact h x z (by simp) (by simp [hz]) ((List.pairwise_cons.mp hp).1 z hz)
    · exact pairwise_imp_mem xs
        (fun a b ha hb hab => h a b (List.mem_cons_of_mem x ha) (List.mem_cons_of_mem x hb) hab)
        (List.pairwise_cons.mp hp).2

/-! ### Claim C1: tiers dominate the ranking -/

theorem cmpResults_tier_le {a b : HybridSearchResult}
    (h : cmpResults a b ≤ 0) : a.tier.toInt ≤ b.tier.toInt := by
  by_cases ht : a.tier = b.tier
  · rw [ht]
  · rw [cmpResults, if_pos ht] at h
    omega

theorem cmpResults_tier_ge {a b : HybridSearchResult}
    (h : ¬ cmpResults a b ≤ 0) : b.tier.toInt ≤ a.tier.toInt := by
  by_cases ht : a.tier = b.tier
  · rw [ht]
  · rw [cmpResults, if_pos ht] at h
    omega

/-- C1: for every list of merge results, `rankMergedResults` places every
Tier-1 and Tier-2 result before every Tier-3 (fuzzy-only) result, whatever
their timestamps and scores: in the output, anything at or after a Tier-3
entry is itself Tier-3; hence (second conjunct) no `searchSessions`
response ever shows a fuzzy-only result ahead of an exact hit. -/
theorem rankMergedResults_c1 :
    (∀ l : List HybridSearchResult,
      (rankMergedResults l).Pairwise
        (fun a b => a.tier = Tier.t3 → b.tier = Tier.t3)) ∧
    (∀ (engineFails : Bool) (bm25 : FtsRow → Int) (snippetF : FtsRow → String)
        (fuzzyEngine : String → List String) (s : SearchState) (query : String)
        (source : Option String) (options : SearchOptions) (now : Int),
      (searchSessions engineFails bm25 snippetF fuzzyEngine s query source
          options now).results.Pairwise
        (fun a b => a.tier = Tier.t3 → b.tier = Tier.t3)) := by
  have main : ∀ l : List HybridSearchResult,
      (rankMergedResults l).Pairwise
        (fun a b => a.tier = Tier.t3 → b.tier = Tier.t3) := by
    intro l
    have hp : (rankMergedResults l).Pairwise
        (fun a b : HybridSearchResult => a.tier.toInt ≤ b.tier.toInt) := by
      refine sortBy_pairwise resultLe l ?_ ?_
      · intro a b c _ _ _ h1 h2
        omega
      · intro a b _ _
        constructor
        · intro h
          exact cmpResults_tier_le (of_decide_eq_true h)
        · intro h
          exact cmpResults_tier_ge (of_decide_eq_false h)
    refine hp.imp ?_
    intro a b hab ha
    rw [ha] at hab
    cases hb : b.tier <;> rw [hb] at hab <;> first | rfl | (simp [Tier.toInt] at hab)
  refine ⟨main, ?_⟩
  intro engineFails bm25 snippetF fuzzyEngine s query source options now
  simp only [searchSessions]
  split
  · exact List.Pairwise.nil
  · split
    · exact List.Pairwise.nil
    · split
      · exact List.Pairwise.nil
      · exact (main _).sublist (List.take_sublist _ _)

/-! ### Claim C3: the within-tier order -/

theorem lexLe_trans : (x y z : List Int) → lexLe x y → lexLe y z → lexLe x z
  | [], _, _, _, _ => trivial
  | _ :: _, [], _, h1, _ => absurd h1 id
  | _ :: _, _ :: _, [], _, h2 => absurd h2 id
  | a :: as, b :: bs, c :: cs, h1, h2 => by
    rcases h1 with hab | ⟨hab, h1'⟩ <;> rcases h2 with hbc | ⟨hbc, h2'⟩
    · exact Or.inl (by omega)
    · exact Or.inl (by omega)
    · exact Or.inl (by omega)
    · exact Or.inr ⟨by omega, lexLe_trans as bs cs h1' h2'⟩

theorem lexLe_total : (x y : List Int) → ¬ lexLe x y → lexLe y x
  | [], _, h => absurd trivial h
  | _ :: _, [], _ => trivial
  | a :: as, b :: bs, h => by
    by_cases hab : a = b
    · refine Or.inr ⟨hab.symm, lexLe_total as bs ?_⟩
      intro hh
      exact h (Or.inr ⟨hab, hh⟩)
    · refine Or.inl ?_
      have : ¬ a < b := fun hh => h (Or.inl hh)
      omega

theorem cmpResults_le_iff (a b : HybridSearchResult)
    (ha : a.tier ≠ Tier.t3 → a.rank ≠ none) (hb : b.tier ≠ Tier.t3 → b.rank ≠ none) :
    cmpResults a b ≤ 0 ↔ lexLe (sortKey a) (sortKey b) := by
  by_cases ht : a.tier = b.tier
  · have hhead : a.tier.toInt = b.tier.toInt := by rw [ht]
    rw [cmpResults, if_neg (by simp [ht])]
    by_cases h3 : a.tier = Tier.t3
    · have hb3 : b.tier = Tier.t3 := ht ▸ h3
      rw [if_neg (by rw [h3]; simp)]
      simp only [sortKey, sortKeyTail, h3, hb3, if_pos, lexLe, Tier.toInt]
      split_ifs <;>
        first
          | omega
          | (simp_all
             omega)
          | simp_all
    · have h12 : a.tier = Tier.t1 ∨ a.tier = Tier.t2 := by
        cases htx : a.tier <;> simp_all
      have hb3 : b.tier ≠ Tier.t3 := ht ▸ h3
      obtain ⟨ra, hra⟩ := Option.ne_none_iff_exists'.mp (ha h3)
      obtain ⟨rb, hrb⟩ := Option.ne_none_iff_exists'.mp (hb hb3)
      rw [if_pos h12]
      simp only [sortKey, sortKeyTail, if_neg h3, if_neg hb3, hra, hrb, Option.getD_some]
      cases hla : a.signals.exactLiteral <;> cases hlb : b.signals.exactLiteral <;>
        cases hpa : a.signals.exactPhrase <;> cases hpb : b.signals.exactPhrase <;>
        cases hka : a.signals.exactTokens <;> cases hkb : b.signals.exactTokens <;>
        simp only [hla, hlb, hpa, hpb, hka, hkb, boolToInt, lexLe, Bool.not_true,
          Bool.not_false, ne_eq, not_true_eq_false, not_false_eq_true, if_true,
          if_false, ite_true, ite_false, reduceIte, reduceCtorEq] <;>
        first
          | omega
          | (split_ifs <;>
              first
                | omega
                | (simp_all
                   omega)
                | simp_all)
          | (simp_all
             omega)
          | simp_all
  · have hinj : ∀ s t : Tier, s.toInt = t.toInt → s = t := by
      intro s t
      cases s <;> cases t <;> simp_all [Tier.toInt]
    have htoInt : a.tier.toInt ≠ b.tier.toInt := fun hh => ht (hinj _ _ hh)
    rw [cmpResults, if_pos ht]
    simp only [sortKey, lexLe]
    constructor
    · intro h
      exact Or.inl (by omega)
    · rintro (h | ⟨heq, _⟩)
      · omega
      · exact absurd heq htoInt

theorem cmpResults_le_iff_spec (a b : HybridSearchResult)
    (ht : a.tier = b.tier) (h3 : a.tier ≠ Tier.t3)
    (hra : a.rank ≠ none) (hrb : b.rank ≠ none) :
    cmpResults a b ≤ 0 ↔ specTier12Le a b = true := by
  have h12 : a.tier = Tier.t1 ∨ a.tier = Tier.t2 := by
    cases htx : a.tier <;> simp_all
  obtain ⟨ra, hra'⟩ := Option.ne_none_iff_exists'.mp hra
  obtain ⟨rb, hrb'⟩ := Option.ne_none_iff_exists'.mp hrb
  rw [cmpResults, if_neg (by simp [ht]), if_pos h12]
  simp only [specTier12Le, hra', hrb', Option.getD_some]
  cases hla : a.signals.exactLiteral <;> cases hlb : b.signals.exactLiteral <;>
    cases hpa : a.signals.exactPhrase <;> cases hpb : b.signals.exactPhrase <;>
    cases hka : a.signals.exactTokens <;> cases hkb : b.signals.exactTokens <;>
    simp only [hla, hlb, hpa, hpb, hka, hkb, boolToInt, Bool.not_true,
      Bool.not_false, ne_eq, not_true_eq_false, not_false_eq_true, if_true,
      if_false, ite_true, ite_false, reduceIte, reduceCtorEq] <;>
    first
      | omega
      | (split_ifs <;>
          first
            | omega
            | (simp_all
               omega)
            | simp_all)
      | (simp_all
         omega)
      | simp_all

/-- C3: under the (always satisfied in practice) hypothesis that every
Tier-1/2 element of the input carries an engine rank, `rankMergedResults`
orders any two same-tier Tier-1 or Tier-2 results by `exactLiteral`
true-first, then `exactPhrase` true-first, then `exactTokens` true-first,
then timestamp descending, then engine rank ascending, then score
descending; in particular two Tier-1 results with identical signals are
ordered by later timestamp first even when the more recent one has a
numerically worse engine rank. -/
theorem rankMergedResults_c3 (l : List HybridSearchResult)
    (hrank : ∀ r ∈ l, r.tier ≠ Tier.t3 → r.rank ≠ none) :
    (rankMergedResults l).Pairwise
      (fun a b => a.tier = b.tier → a.tier ≠ Tier.t3 → specTier12Le a b = true) := by
  have hp : (rankMergedResults l).Pairwise
      (fun a b => lexLe (sortKey a) (sortKey b)) := by
    refine sortBy_pairwise resultLe l ?_ ?_
    · exact fun a b c _ _ _ => lexLe_trans _ _ _
    · intro a b hal hbl
      have hiff := cmpResults_le_iff a b (hrank a hal) (hrank b hbl)
      constructor
      · intro h
        exact hiff.mp (of_decide_eq_true h)
      · intro h
        exact lexLe_total _ _ fun hh => (of_decide_eq_false h) (hiff.mpr hh)
  refine pairwise_imp_mem _ ?_ hp
  intro x y hx hy hxy htier hx3
  have hx' : x ∈ l := mem_sortBy.mp hx
  have hy' : y ∈ l := mem_sortBy.mp hy
  have hy3 : y.tier ≠ Tier.t3 := htier ▸ hx3
  have h1 := (cmpResults_le_iff x y (hrank x hx') (hrank y hy')).mpr hxy
  exact (cmpResults_le_iff_spec x y htier hx3 (hrank x hx' hx3) (hrank y hy' hy3)).mp h1

/-- C3 witness: two concrete Tier-1 results with identical exactness
signals; the more recent one (worse engine rank, lower score) sorts first. -/
theorem rankMergedResults_c3_witness :
    (rankMergedResults [c3Older, c3Recent]).Pairwise
      (fun a b => a.tier = b.tier → a.tier ≠ Tier.t3 → specTier12Le a b = true) ∧
    rankMergedResults [c3Older, c3Recent] = [c3Recent, c3Older] :=
  ⟨rankMergedResults_c3 [c3Older, c3Recent] (by decide), by decide⟩

/-! ### Claim C6: idempotent upsert -/

theorem count_after_delete_insert {α} (p q : α → Bool) (Y : List α) (row : α)
    (hrow : p row = true) (hpq : ∀ a, q a = true → p a = false) :
    ((Y.filter q ++ [row]).filter p).length = 1 := by
  rw [List.filter_append]
  have h1 : (Y.filter q).filter p = [] := by
    rw [List.filter_eq_nil_iff]
    intro a ha
    have hq := (List.mem_filter.mp ha).2
    simp [hpq a hq]
  rw [h1]
  simp [hrow]

theorem mapSet_map_branch_count {α} (m : List (String × α)) (k : String) (v : α) :
    (((m.map fun p => if p.1 == k then (k, v) else p).filter
      fun p => p.1 == k).length) = ((m.filter fun p => p.1 == k).length) := by
  have h1 : ∀ p : String × α,
      ((if p.1 == k then ((k, v) : String × α) else p).1 == k) = (p.1 == k) := by
    intro p
    by_cases hp : p.1 == k
    · simp [hp]
    · simp [hp]
  calc (((m.map fun p => if p.1 == k then (k, v) else p).filter
        fun p => p.1 == k).length)
      = (m.map fun p => if p.1 == k then (k, v) else p).countP
          (fun p => p.1 == k) := (List.countP_eq_length_filter _ _).symm
    _ = m.countP ((fun p : String × α => p.1 == k) ∘
          (fun p => if p.1 == k then (k, v) else p)) := List.countP_map _ _ _
    _ = m.countP (fun p => p.1 == k) := by
        refine List.countP_congr ?_
        intro p _
        simp only [Function.comp]
        rw [h1 p]
    _ = ((m.filter fun p => p.1 == k).length) := List.countP_eq_length_filter _ _

theorem nodup_any_count {α} (m : List (String × α)) (k : String)
    (hnd : (m.map Prod.fst).Nodup) (hany : m.any (fun p => p.1 == k) = true) :
    ((m.filter fun p => p.1 == k).length) = 1 := by
  induction m with
  | nil => simp at hany
  | cons p rest ih =>
    simp only [List.map_cons, List.nodup_cons] at hnd
    by_cases hp : p.1 == k
    · have hk : p.1 = k := by simpa using hp
      have hrest : rest.filter (fun q => q.1 == k) = [] := by
        rw [List.filter_eq_nil_iff]
        intro a ha
        intro hak
        refine hnd.1 ?_
        rw [hk]
        have h2 : a.1 = k := by simpa using hak
        rw [← h2]
        exact List.mem_map_of_mem Prod.fst ha
      simp [List.filter_cons, hp, hrest]
    · simp only [List.any_cons, Bool.or_eq_true] at hany
      rcases hany with h | h
      · exact absurd h hp
      · simp only [List.filter_cons, hp]
        simp only [Bool.false_eq_true, if_false]
        exact ih hnd.2 h

theorem not_any_count {α} (m : List α) (pred : α → Bool)
    (h : m.any pred = false) : (m.filter pred).length = 0 := by
  have h0 : m.filter pred = [] := by
    rw [List.filter_eq_nil_iff]
    intro a ha
    exact fun hp => (List.any_eq_false.mp h a ha) hp
  simp [h0]

theorem mapSet_key_count {α} (m : List (String × α)) (k : String) (v : α) :
    (((mapSet m k v).filter fun p => p.1 == k).length) =
      if m.any (fun p => p.1 == k) then ((m.filter fun p => p.1 == k).length)
      else 1 := by
  rw [mapSet]
  by_cases h : m.any (fun p => p.1 == k) = true
  · rw [if_pos h, if_pos h]
    exact mapSet_map_branch_count m k v
  · rw [if_neg h, if_neg h]
    rw [List.filter_append]
    have h0 : m.filter (fun p => p.1 == k) = [] := by
      rw [List.filter_eq_nil_iff]
      intro a ha hp
      exact h (List.any_eq_true.mpr ⟨a, ha, hp⟩)
    rw [h0]
    simp

theorem mapHas_mapSet_self {α} (m : List (String × α)) (k : String) (v : α) :
    mapHas (mapSet m k v) k = true := by
  rw [mapSet, mapHas]
  by_cases h : m.any (fun p => p.1 == k) = true
  · rw [if_pos h]
    obtain ⟨p, hp, hpk⟩ := List.any_eq_true.mp h
    refine List.any_eq_true.mpr ⟨(k, v), ?_, by simp⟩
    refine List.mem_map.mpr ⟨p, hp, ?_⟩
    simp [hpk]
  · rw [if_neg h]
    refine List.any_eq_true.mpr ⟨(k, v), by simp, by simp⟩

theorem mapSet_count_of_has {α} (m : List (String × α)) (k : String) (v : α)
    (h : mapHas m k = true) :
    (((mapSet m k v).filter fun p => p.1 == k).length) =
      ((m.filter fun p => p.1 == k).length) := by
  rw [mapSet_key_count, if_pos (by rw [mapHas] at h; exact h)]

/-- C6: `indexSession` is idempotent per identity: with the database open
(and the fuzzy-document map well formed, i.e. without duplicate keys, as a
JavaScript `Map` always is), calling it twice with identical arguments
leaves exactly one FTS row and one meta row for the `(source, sessionId)`
identity, and exactly one entry under the composite key in the fuzzy
document map and the fuzzy index - the old row is deleted before the new
one is inserted, so repeated calls never duplicate postings. -/
theorem indexSession_c6 (s : SearchState)
    (sessionId source display project content : String) (timestamp : Int)
    (contentHash : String) (now : Int)
    (hdb : s.dbOpen = true)
    (hnodup : (s.fuzzyDocs.map Prod.fst).Nodup) :
    ((indexSession (indexSession s sessionId source display project content
        timestamp contentHash now) sessionId source display project content
        timestamp contentHash now).ftsRows.filter fun r =>
      r.sessionId == sessionId && r.source == source).length = 1 ∧
    ((indexSession (indexSession s sessionId source display project content
        timestamp contentHash now) sessionId source display project content
        timestamp contentHash now).metaRows.filter fun m =>
      m.sessionId == sessionId && m.source == source).length = 1 ∧
    ((indexSession (indexSession s sessionId source display project content
        timestamp contentHash now) sessionId source display project content
        timestamp contentHash now).fuzzyDocs.filter fun p =>
      p.1 == makeSessionKey source sessionId).length = 1 ∧
    ((indexSession (indexSession s sessionId source display project content
        timestamp contentHash now) sessionId source display project content
        timestamp contentHash now).fuzzyIndexKeys.filter fun p =>
      p.1 == makeSessionKey source sessionId).length = 1 := by
  have h1db : (indexSession s sessionId source display project content
      timestamp contentHash now).dbOpen = true := by
    rw [indexSession, hdb]
    simp
  rw [indexSession, h1db]
  rw [indexSession, hdb]
  simp only [Bool.not_true, Bool.false_eq_true, if_false]
  refine ⟨?_, ?_, ?_, ?_⟩
  · refine count_after_delete_insert _ _ _ _ (by simp) ?_
    intro a ha
    simp at ha ⊢
    tauto
  · refine count_after_delete_insert _ _ _ _ (by simp) ?_
    intro a ha
    simp at ha ⊢
    tauto
  · have hc1 : (((mapSet s.fuzzyDocs (makeSessionKey source sessionId)
        ({ sessionId := sessionId, source := source, display := display,
           project := project, content := content,
           timestamp := timestamp } : FuzzyDoc)).filter fun p =>
        p.1 == makeSessionKey source sessionId).length) = 1 := by
      rw [mapSet_key_count]
      by_cases h : s.fuzzyDocs.any
          (fun p => p.1 == makeSessionKey source sessionId) = true
      · rw [if_pos h]
        exact nodup_any_count _ _ hnodup h
      · rw [if_neg h]
    rw [mapSet_count_of_has _ _ _ (mapHas_mapSet_self _ _ _)]
    exact hc1
  · rw [if_pos (mapHas_mapSet_self s.fuzzyDocs (makeSessionKey source sessionId)
      ({ sessionId := sessionId, source := source, display := display,
         project := project, content := content,
         timestamp := timestamp } : FuzzyDoc))]
    exact count_after_delete_insert _ _ _ _ (by simp)
      (fun a ha => by
        simp only [decide_eq_true_eq] at ha
        simp [ha])

/-- C6 witness: the double upsert on the fresh state. -/
theorem indexSession_c6_witness :
    ((indexSession (indexSession initialSearchState "s" "claude" "D" "P" "C"
        1 "h" 2) "s" "claude" "D" "P" "C" 1 "h" 2).ftsRows.filter fun r =>
      r.sessionId == "s" && r.source == "claude").length = 1 ∧
    ((indexSession (indexSession initialSearchState "s" "claude" "D" "P" "C"
        1 "h" 2) "s" "claude" "D" "P" "C" 1 "h" 2).metaRows.filter fun m =>
      m.sessionId == "s" && m.source == "claude").length = 1 ∧
    ((indexSession (indexSession initialSearchState "s" "claude" "D" "P" "C"
        1 "h" 2) "s" "claude" "D" "P" "C" 1 "h" 2).fuzzyDocs.filter fun p =>
      p.1 == makeSessionKey "claude" "s").length = 1 ∧
    ((indexSession (indexSession initialSearchState "s" "claude" "D" "P" "C"
        1 "h" 2) "s" "claude" "D" "P" "C" 1 "h" 2).fuzzyIndexKeys.filter fun p =>
      p.1 == makeSessionKey "claude" "s").length = 1 :=
  indexSession_c6 initialSearchState "s" "claude" "D" "P" "C" 1 "h" 2 rfl (by decide)

/-! ### Claim C8: the search never fails across its boundary -/

/-- C8: `searchSessions` returns an empty result list with the coverage
snapshot and partial flag still populated from the pre-retrieval state
whenever the database is uninitialized, the trimmed query is empty, the
built exact query is empty, or the exact-engine query raises; being a total
function, the embedding cannot throw at all. -/
theorem searchSessions_c8 (engineFails : Bool) (bm25 : FtsRow → Int)
    (snippetF : FtsRow → String) (fuzzyEngine : String → List String)
    (s : SearchState) (query : String) (source : Option String)
    (options : SearchOptions) (now : Int)
    (h : s.dbOpen = false ∨ jsTrim query = "" ∨
      buildFtsQuery (jsTrim query) = "" ∨ engineFails = true) :
    searchSessions engineFails bm25 snippetF fuzzyEngine s query source options now =
      { query := query, partialFlag := (getCoverageSnapshot s now).partialFlag,
        coverage := (getCoverageSnapshot s now).coverage, results := [] } := by
  by_cases h1 : s.dbOpen = true
  · by_cases hq : jsTrim query = ""
    · simp [searchSessions, hq]
    · by_cases h2 : buildFtsQuery (jsTrim query) = ""
      · simp [searchSessions, h1, hq, h2]
      · have h4 : engineFails = true := by
          rcases h with h | h | h | h
          · rw [h1] at h
            simp at h
          · exact absurd h hq
          · exact absurd h h2
          · exact h
        simp [searchSessions, h1, hq, h2, h4]
  · have h1' : s.dbOpen = false := by
      revert h1
      cases s.dbOpen <;> simp
    simp [searchSessions, h1']

/-- C8 witness: an engine failure on a nonempty query still yields the
empty-but-covered response. -/
theorem searchSessions_c8_witness :
    searchSessions true (fun _ => 0) (fun _ => "") (fun _ => [])
        c10State "hello" none { fuzzy := none, limit := none } 7 =
      { query := "hello",
        partialFlag := (getCoverageSnapshot c10State 7).partialFlag,
        coverage := (getCoverageSnapshot c10State 7).coverage, results := [] } :=
  searchSessions_c8 true (fun _ => 0) (fun _ => "") (fun _ => [])
    c10State "hello" none { fuzzy := none, limit := none } 7 (by decide)

/-! ### Claim C10: fuzzy off means exact-only results -/

theorem mapSet_values_pres {α} {P : α → Prop} (m : List (String × α)) (k : String)
    (v : α) (hm : ∀ x ∈ m.map (fun p => p.2), P x) (hv : P v) :
    ∀ x ∈ (mapSet m k v).map (fun p => p.2), P x := by
  rw [mapSet]
  split
  · intro x hx
    obtain ⟨p, hp, hpx⟩ := List.mem_map.mp hx
    obtain ⟨q, hq, hqp⟩ := List.mem_map.mp hp
    by_cases hqk : q.1 == k
    · rw [← hpx, ← hqp, if_pos hqk]
      exact hv
    · rw [← hpx, ← hqp, if_neg hqk]
      exact hm q.2 (List.mem_map_of_mem _ hq)
  · intro x hx
    rw [List.map_append] at hx
    rcases List.mem_append.mp hx with hx | hx
    · exact hm x hx
    · simp only [List.map_cons, List.map_nil, List.mem_singleton] at hx
      rw [hx]
      exact hv

theorem mergeExact_foldl_values (nq : String) :
    (rows : List ExactRow) → (m : List (String × HybridSearchResult)) →
    (∀ x ∈ m.map (fun p => p.2),
      (x.tier = Tier.t1 ∨ x.tier = Tier.t2) ∧ x.signals.fuzzy = false) →
    ∀ x ∈ ((rows.foldl (mergeExactRow nq) m).map fun p => p.2),
      (x.tier = Tier.t1 ∨ x.tier = Tier.t2) ∧ x.signals.fuzzy = false
  | [], _, hm => by simpa using hm
  | row :: rest, m, hm => by
    rw [List.foldl_cons]
    refine mergeExact_foldl_values nq rest _ ?_
    rw [mergeExactRow]
    refine mapSet_values_pres _ _ _ hm ?_
    constructor
    · by_cases hc : (determineExactSignals nq
          (row.display ++ "\n" ++ row.project ++ "\n" ++ row.content)).exactLiteral ||
          (determineExactSignals nq
            (row.display ++ "\n" ++ row.project ++ "\n" ++ row.content)).exactPhrase
      · exact Or.inl (by simp [hc])
      · exact Or.inr (by simp [hc])
    · rfl

/-- C10: calling `searchSessions` with `options.fuzzy = false` skips the
fuzzy retrieval stage entirely: every returned result has Tier 1 or 2 and
`signals.fuzzy = false` - the response is drawn solely from the exact
index. -/
theorem searchSessions_c10 (engineFails : Bool) (bm25 : FtsRow → Int)
    (snippetF : FtsRow → String) (fuzzyEngine : String → List String)
    (s : SearchState) (query : String) (source : Option String)
    (options : SearchOptions) (now : Int)
    (hopt : options.fuzzy = some false) :
    ∀ r ∈ (searchSessions engineFails bm25 snippetF fuzzyEngine s query source
        options now).results,
      (r.tier = Tier.t1 ∨ r.tier = Tier.t2) ∧ r.signals.fuzzy = false := by
  intro r hr
  simp only [searchSessions, hopt] at hr
  split at hr
  · simp at hr
  · split at hr
    · simp at hr
    · split at hr
      · simp at hr
      · rw [if_neg (by simp)] at hr
        have hr1 : r ∈ rankMergedResults
            ((((ftsMatchRows s bm25 snippetF (tokenizeSearchQuery (jsTrim query))
              source (max (min (max (options.limit.getD 50) 1) 100 * 10) 300).toNat).foldl
                (mergeExactRow (jsTrim query)) []).map fun p => p.2)) :=
          List.take_subset _ _ hr
        rw [rankMergedResults] at hr1
        have hr2 := mem_sortBy.mp hr1
        exact mergeExact_foldl_values (jsTrim query) _ [] (by simp) r hr2

/-- C10 witness: the concrete exact-only search returns the Tier-1,
non-fuzzy `c10Result`. -/
theorem searchSessions_c10_witness :
    (c10Result.tier = Tier.t1 ∨ c10Result.tier = Tier.t2) ∧
      c10Result.signals.fuzzy = false :=
  searchSessions_c10 false (fun _ => -5) (fun _ => "snippet") (fun _ => [])
    c10State "hello" none { fuzzy := some false, limit := none } 0 rfl
    c10Result (by decide)

/-! ### Claim C7: identity keying across sources -/

theorem removeMirrorEntry_metaRows (st : SearchState) (a b : String) :
    (removeMirrorEntry st a b).metaRows = st.metaRows := by
  simp only [removeMirrorEntry]
  split <;> rfl

theorem foldl_removeMirrorEntry_metaRows (rows : List String) (st : SearchState)
    (sid : String) :
    (rows.foldl (fun acc r => removeMirrorEntry acc sid r) st).metaRows =
      st.metaRows := by
  induction rows generalizing st with
  | nil => rfl
  | cons r rest ih => rw [List.foldl_cons, ih, removeMirrorEntry_metaRows]

/-- C7: all index structures key on the composite (source, sessionId)
identity: with the same literal sessionId indexed under claude and codex,
searching a token shared by both returns two results distinguishable by
source; removing with the explicit source claude deletes exactly that
identity (tables, fuzzy structures and mirrors keep only the codex entry),
removing with no source deletes the sessionId across all sources; and in
general a meta row survives `removeIndexedSession` with a source exactly
when it is not that one identity, and survives source-less removal exactly
when its sessionId differs. -/
theorem removeIndexedSession_c7 :
    ((searchSessions false (fun _ => 0) (fun _ => "sn") (fun _ => []) c7s3
        "uniqtoken" none { fuzzy := some false, limit := some 20 } 0).results.map
      fun r => (r.sessionId, r.source)) = [("cid", "codex"), ("cid", "claude")] ∧
    (removeIndexedSession c7s3 "cid" (some "claude")).metaRows =
      [{ sessionId := "cid", source := "codex", contentHash := some "h2",
         sessionTimestamp := 101, lastIndexedAt := some 1001 }] ∧
    ((removeIndexedSession c7s3 "cid" (some "claude")).ftsRows.map
      fun r => r.source) = ["codex"] ∧
    ((removeIndexedSession c7s3 "cid" (some "claude")).fuzzyDocs.map
      fun p => p.1) = ["codex:cid"] ∧
    (removeIndexedSession c7s3 "cid" (some "claude")).indexedIds = ["codex:cid"] ∧
    (removeIndexedSession c7s3 "cid" none).metaRows = [] ∧
    (removeIndexedSession c7s3 "cid" none).ftsRows = [] ∧
    (removeIndexedSession c7s3 "cid" none).fuzzyDocs = [] ∧
    (removeIndexedSession c7s3 "cid" none).indexedIds = [] ∧
    (∀ (st : SearchState) (sid src : String) (m : MetaRow), st.dbOpen = true →
      (m ∈ (removeIndexedSession st sid (some src)).metaRows ↔
        m ∈ st.metaRows ∧ ¬(m.sessionId = sid ∧ m.source = src))) ∧
    (∀ (st : SearchState) (sid : String) (m : MetaRow), st.dbOpen = true →
      (m ∈ (removeIndexedSession st sid none).metaRows ↔
        m ∈ st.metaRows ∧ m.sessionId ≠ sid)) := by
  refine ⟨by decide, by decide, by decide, by decide, by decide, by decide,
    by decide, by decide, by decide, ?_, ?_⟩
  · intro st sid src m hdb
    have hmeta : (removeIndexedSession st sid (some src)).metaRows =
        st.metaRows.filter fun mm => !(mm.sessionId == sid && mm.source == src) := by
      simp only [removeIndexedSession, hdb, Bool.not_true, Bool.false_eq_true,
        if_false]
      exact foldl_removeMirrorEntry_metaRows _ _ _
    rw [hmeta, List.mem_filter]
    simp
    intro _
    tauto
  · intro st sid m hdb
    have hmeta : (removeIndexedSession st sid none).metaRows =
        st.metaRows.filter fun mm => !(mm.sessionId == sid) := by
      simp only [removeIndexedSession, hdb, Bool.not_true, Bool.false_eq_true,
        if_false]
      exact foldl_removeMirrorEntry_metaRows _ _ _
    rw [hmeta, List.mem_filter]
    simp

end SessionSearch
